import Mathlib

/-!
Verification development for the `gowalker` repository.

The repository contains two traversal engines over Go values via reflection:

* `walker.go` — the current engine: `Walk(obj, options...)` returns a rooted
  metadata tree (`*FieldMeta`), a flat map from path strings to nodes, and an
  error.  Its `walkRecursive` dereferences pointers under a `path + ".*"`
  child path, tracks pointer identities in a per-call `visited` set, and runs
  a list of user callbacks at every node.
* `structmeta.go` / the unnamed legacy file (`part_002`) — the legacy engine:
  `Walk(obj, fn, options...)` with a single callback, a per-path node cache,
  type/tag/meta filters consulted before node construction, and pointer
  dereference that reuses the parent path unchanged.

The embedding below models Go values deeply (with an explicit heap so that
self-referential values exist), and translates both engines into pure
state-passing functions.  Recursion in the Go code terminates because every
recursive call increments `depth` and the first statement prunes when
`depth > maxDepth`; the Lean functions realise exactly that guard through a
structural fuel argument `fuel = (maxDepth + 1 - depth).toNat`, so that
`fuel = 0` holds iff `depth > maxDepth`, and the fuel of a child call at
`depth + 1` is exactly `fuel - 1`.  The wrappers `gowalker.walkRecursive` and
`legacy.walkRecursive` restore the Go signatures.

Facts of Go semantics used by the embedding (stated here once):

* `reflect.ValueOf` applied to an `interface{}` never yields a value of
  `Kind() == reflect.Interface` (the dynamic value is unwrapped), so the
  `Interface` arm of the kind switches is unreachable and the model has no
  interface value constructor.
* `reflect.ValueOf` never yields an addressable value, so `v.CanSet()` is
  `false` at every node either engine builds (`valueCanSet` below).
* `Value.Interface()` panics for a value obtained from an unexported struct
  field (its `CanInterface` is false), and for the invalid `Value` produced
  by `Elem()` on a nil pointer.
* `reflect.TypeOf(nil)` is a nil `reflect.Type`, so `t.Name()` on it panics.
* `fmt.Sprintf("%s[%v]", path, key.Interface())` renders a map key by its
  default `%v` representation; the model carries map keys directly as their
  rendering, and two distinct Go keys may share a rendering (for example the
  `interface{}` keys `1` and `"1"` in a `map[interface{}]T`).
-/

/-- Error values returned by user callbacks are opaque; model them as `Nat`. -/
abbrev GoErr := Nat

/-- The part of a `reflect.Type` the engines consult: `Name()`, `String()`
and `PkgPath()`. -/
structure GoType where
  name : String
  str : String
  pkgPath : String
deriving DecidableEq

/-- A struct field's declaration data: `StructField.Name`, `StructField.PkgPath`
(nonempty iff the field is unexported) and its tag (carried as a raw string;
the engines only ever pass it to a `TagFilter`). -/
structure FieldInfo where
  fname : String
  fPkgPath : String
  ftag : String
deriving DecidableEq

/-- A Go value as the engines observe it through `reflect`.  Pointers carry a
heap address (`0` is the nil pointer); `invalid` is the invalid
`reflect.Value` (e.g. `reflect.ValueOf(nil)`).  Map entries carry the `%v`
rendering of their key together with the entry value. -/
inductive Val where
  | invalid : Val
  | base : GoType → Val
  | ptr : GoType → Nat → Val
  | strct : GoType → List (FieldInfo × Val) → Val
  | slice : GoType → List Val → Val
  | arr : GoType → List Val → Val
  | mp : GoType → List (String × Val) → Val

/-- The heap: pointer address to pointee.  Address `0` is never mapped. -/
abbrev Heap := List (Nat × Val)

/-- Dereference an address.  Go cannot produce a dangling non-nil pointer;
an unmapped address yields the invalid value, which the engines silently
prune, so this choice is unobservable on faithful inputs. -/
def heapGet (h : Heap) (a : Nat) : Val :=
  match h.find? (fun e => e.1 == a) with
  | some e => e.2
  | none => Val.invalid

/-- `v.IsValid()`. -/
def Val.isValid : Val → Bool
  | .invalid => false
  | _ => true

/-- `v.Type()`, total because the engines consult it only after the validity
guard; the default is never observed. -/
def Val.typeOf : Val → GoType
  | .invalid => ⟨"", "", ""⟩
  | .base t => t
  | .ptr t _ => t
  | .strct t _ => t
  | .slice t _ => t
  | .arr t _ => t
  | .mp t _ => t

/-- `reflect.TypeOf(obj)` at the top of `Walk`: `none` models the nil
`reflect.Type` returned for a nil `interface{}`. -/
def Val.typeOfTop : Val → Option GoType
  | .invalid => none
  | v => some v.typeOf

/-- `v.CanSet()`: `reflect.ValueOf` never returns an addressable value, and
every value either engine inspects was produced by `reflect.ValueOf` of an
`interface{}`, so `CanSet` is `false` at every visited node. -/
def valueCanSet (_ : Val) : Bool := false

/-- The scalar fields of a metadata node (`FieldMeta` / `ObjMeta` without the
`Parent` and `Children` links).  The Go field `Type` is spelled `Ty` because
`Type` is a Lean keyword. -/
structure MetaCore where
  Name : String
  Ty : GoType
  CanSet : Bool
  IsPrivate : Bool
  Path : String
deriving DecidableEq

/-- The by-value copy of a metadata node passed to callbacks and meta
filters (`fn(v, *meta)`): the seven fields of the Go struct at copy time.
The `Parent` pointer and `Children` slice are copied shallowly; at every
copy site in both engines they are still at their zero values. -/
structure MetaSnap where
  Name : String
  Ty : GoType
  CanSet : Bool
  IsPrivate : Bool
  Path : String
  Parent : Option MetaCore
  Children : List MetaCore
deriving DecidableEq

/-- The metadata tree the current engine returns: a node and its attached
children, in attachment order.  (The Go `Parent` back-pointer is the inverse
of the child edge and is not separately represented.) -/
inductive MetaNode where
  | mk : MetaCore → List MetaNode → MetaNode

/-- `t.Name()`, falling back to `t.String()` when the type has no declared
name — computed identically at the root (`Walk`) and per node. -/
def mkName (t : GoType) : String :=
  if t.name ≠ "" then t.name else t.str

/-- The snapshot passed to callbacks for a freshly built node: `Parent` and
`Children` are still zero-valued at that point in both engines. -/
def snapOf (c : MetaCore) : MetaSnap :=
  ⟨c.Name, c.Ty, c.CanSet, c.IsPrivate, c.Path, none, []⟩

/-- A pending child visit produced by a kind-dispatch branch: either a
recursive visit of a value under a child path, or a panic raised by the
`Interface()` call that would produce the child value. -/
inductive Child where
  | visit : String → Val → Child
  | panicAt : Child

/-- Children of a sequence: `fmt.Sprintf("%s[%d]", path, i)` per index. -/
def idxChildren (path : String) : Nat → List Val → List Child
  | _, [] => []
  | i, v :: rest =>
      Child.visit (path ++ "[" ++ toString i ++ "]") v :: idxChildren path (i + 1) rest

namespace gowalker

/-- Callback type `UserFunc`: the returned `Option GoErr` is the Go `error`
(`none` = nil). -/
abbrev UserFunc := Val → MetaSnap → Option GoErr

abbrev TagFilter := String → Bool
abbrev TypeFilter := GoType → Bool
abbrev MetaFilter := MetaSnap → Bool

/-- `walkSettings` of walker.go. -/
structure walkSettings where
  maxDepth : Int
  includePrivate : Bool
  onlySettable : Bool
  tagFilter : Option TagFilter
  typeFilter : Option TypeFilter
  metaFilter : Option MetaFilter
  userFuncs : List UserFunc

/-- `defaultSettings` of walker.go: max depth 10, unexported fields included,
no filters, no callbacks. -/
def defaultSettings : walkSettings :=
  ⟨10, true, false, none, none, none, []⟩

/-- One recorded callback invocation: the value and metadata copy passed to
the callback, and the error the callback returned. -/
structure Event where
  v : Val
  meta : MetaSnap
  result : Option GoErr

/-- The mutable state of one traversal: the `visited` pointer-identity set,
the flat map as its sequence of `Store` operations (later stores of an equal
path overwrite in the final map), and the instrumentation trace of callback
invocations. -/
structure WState where
  visited : List Nat
  flat : List (String × MetaCore)
  trace : List Event

/-- Result of one `walkRecursive` call: a (possibly absent) node, a
propagated callback error, or a reflect panic. -/
inductive WRes where
  | ok : Option MetaNode → WRes
  | err : GoErr → WRes
  | panicked : WRes

/-- Result of the child loop of one node. -/
inductive CRes where
  | ok : List MetaNode → CRes
  | err : GoErr → CRes
  | panicked : CRes

/-- The callback loop (walker.go lines 123–127): run each registered
callback in order on the value and a by-value copy of the freshly built
node; the first error aborts. -/
def runFuncs : List UserFunc → Val → MetaSnap → WState → WState × Option GoErr
  | [], _, _, st => (st, none)
  | fn :: rest, v, m, st =>
    let st' : WState := { st with trace := st.trace ++ [⟨v, m, fn v m⟩] }
    match fn v m with
    | some e => (st', some e)
    | none => runFuncs rest v m st'

/-- The cycle guard (walker.go lines 98–106): for a pointer with non-zero
address, prune if the address was already visited, otherwise record it;
`none` means "already visited, return no node". -/
def cycleCheck (v : Val) (visited : List Nat) : Option (List Nat) :=
  match v with
  | .ptr _ addr =>
      if addr ≠ 0 then
        if visited.contains addr then none else some (addr :: visited)
      else some visited
  | _ => some visited

/-- The kind dispatch of walker.go (lines 129–199) as the list of pending
child visits of a node, in source order.  A struct member is dropped when an
active tag filter rejects its tag, when unexported members are excluded and
it is unexported, or when only settable members are kept and it is not
settable; an unexported member that survives those checks panics at
`fieldVal.Interface()`. -/
def childrenOf (s : walkSettings) (h : Heap) (v : Val) (path : String) : List Child :=
  match v with
  | .ptr _ addr =>
      if addr ≠ 0 then [Child.visit (path ++ ".*") (heapGet h addr)] else []
  | .strct _ fields =>
      fields.filterMap (fun fv =>
        if (match s.tagFilter with | some f => !f fv.1.ftag | none => false) then none
        else if !s.includePrivate && fv.1.fPkgPath != "" then none
        else if s.onlySettable && !valueCanSet fv.2 then none
        else if fv.1.fPkgPath != "" then some Child.panicAt
        else some (Child.visit (path ++ "." ++ fv.1.fname) fv.2))
  | .slice _ elems => idxChildren path 0 elems
  | .arr _ elems => idxChildren path 0 elems
  | .mp _ entries =>
      entries.map (fun kv => Child.visit (path ++ "[" ++ kv.1 ++ "]") kv.2)
  | _ => []

/-- The child loop shared by all kind branches: visit each pending child in
order, appending each returned node to the children list; a callback error
or a panic aborts the loop immediately. -/
def walkChildren (rec : Val → String → WState → WState × WRes) :
    List Child → WState → WState × CRes
  | [], st => (st, .ok [])
  | Child.panicAt :: _, st => (st, .panicked)
  | Child.visit p v :: rest, st =>
    match rec v p st with
    | (st', .ok m?) =>
      (match walkChildren rec rest st' with
       | (st'', .ok ms) =>
           (st'', .ok (match m? with | some m => m :: ms | none => ms))
       | (st'', .err e) => (st'', .err e)
       | (st'', .panicked) => (st'', .panicked))
    | (st', .err e) => (st', .err e)
    | (st', .panicked) => (st', .panicked)

/-- The body of walker.go's `walkRecursive`, with the depth guard realised
by structural fuel (see the file header): `fuel = 0` iff `depth > maxDepth`.
Order of effects per node, exactly as in the source: validity guard, cycle
guard, node construction, flat-map store, callback loop, kind dispatch. -/
def walkF (s : walkSettings) (h : Heap) :
    Nat → Val → Nat → String → WState → WState × WRes
  | 0, _, _, _, st => (st, .ok none)
  | fuel + 1, obj, depth, path, st =>
    if !obj.isValid then (st, .ok none)
    else
      let t := obj.typeOf
      match cycleCheck obj st.visited with
      | none => (st, .ok none)
      | some vis =>
        let core : MetaCore :=
          ⟨mkName t, t, valueCanSet obj, t.pkgPath != "", path⟩
        let st1 : WState :=
          { st with visited := vis, flat := st.flat ++ [(path, core)] }
        match runFuncs s.userFuncs obj (snapOf core) st1 with
        | (st2, some e) => (st2, .err e)
        | (st2, none) =>
          match walkChildren (fun v p stc => walkF s h fuel v (depth + 1) p stc)
              (childrenOf s h obj path) st2 with
          | (st3, .ok kids) => (st3, .ok (some (.mk core kids)))
          | (st3, .err e) => (st3, .err e)
          | (st3, .panicked) => (st3, .panicked)

/-- The fuel that realises the depth guard at a given depth. -/
def fuelFor (s : walkSettings) (depth : Nat) : Nat :=
  (s.maxDepth + 1 - depth).toNat

/-- walker.go's `walkRecursive` with its Go signature. -/
def walkRecursive (s : walkSettings) (h : Heap) (obj : Val) (depth : Nat)
    (path : String) (st : WState) : WState × WRes :=
  walkF s h (fuelFor s depth) obj depth path st

/-- An `Option` in the Go sense (the name `Option` is taken by Lean). -/
abbrev Opt := walkSettings → walkSettings

def MaxDepth (n : Int) : Opt := fun s => { s with maxDepth := n }

def PrivateFields : Opt := fun s => { s with includePrivate := true }

def OnlySettable : Opt := fun s => { s with onlySettable := true }

def WithTagFilter (f : TagFilter) : Opt := fun s => { s with tagFilter := some f }

def WithTypeFilter (f : TypeFilter) : Opt := fun s => { s with typeFilter := some f }

def WithMetaFilter (f : MetaFilter) : Opt := fun s => { s with metaFilter := some f }

def WithUserFunc (f : UserFunc) : Opt := fun s => { s with userFuncs := s.userFuncs ++ [f] }

def TypeIsOneOf (allowed : List GoType) : TypeFilter := fun t => allowed.contains t

def IgnoreType (disallowed : List GoType) : TypeFilter := fun t => !disallowed.contains t

/-- The return of `Walk`: the Go triple `(rootNode, flatMap, error)`, or a
panic.  On a callback error the source returns `nil, nil, err`, hence both
`Option`s are `none` there; on success the flat map is the (non-nil) map
assembled from the store sequence. -/
inductive WalkRet where
  | ret : Option MetaNode → Option (List (String × MetaCore)) → Option GoErr → WalkRet
  | panicked : WalkRet

/-- Fresh state at the top of `Walk`. -/
def initState : WState := ⟨[], [], []⟩

/-- walker.go's `Walk`, instrumented to also return the final traversal
state.  `reflect.TypeOf(nil)` is nil, so a nil root panics at `t.Name()`. -/
def WalkSt (h : Heap) (obj : Val) (opts : List Opt) : WState × WalkRet :=
  let s := opts.foldl (fun acc o => o acc) defaultSettings
  match obj.typeOfTop with
  | none => (initState, .panicked)
  | some t =>
    let rootPath := mkName t
    match walkRecursive s h obj 0 rootPath initState with
    | (st, .ok m) => (st, .ret m (some st.flat) none)
    | (st, .err e) => (st, .ret none none (some e))
    | (st, .panicked) => (st, .panicked)

/-- walker.go's `Walk`. -/
def Walk (h : Heap) (obj : Val) (opts : List Opt) : WalkRet :=
  (WalkSt h obj opts).2

/-- Paths in flat-map store order. -/
def flatPaths (st : WState) : List String := st.flat.map (fun e => e.1)

/-- Paths of callback invocations in trace order. -/
def tracePaths (st : WState) : List String := st.trace.map (fun e => e.meta.Path)

end gowalker

namespace legacy

/-- Legacy callback type `UserFunc` (the metadata type is called `ObjMeta`
in the legacy files; its copy shape is the shared `MetaSnap`). -/
abbrev UserFunc := Val → MetaSnap → Option GoErr

abbrev TagFilter := String → Bool
abbrev TypeFilter := GoType → Bool
abbrev MetaFilter := MetaSnap → Bool

/-- `walkSettings` of the legacy engine (part_002). -/
structure walkSettings where
  MaxDepth : Int
  IncludePrivate : Bool
  OnlySettable : Bool
  TagFilter : Option TagFilter
  TypeFilter : Option TypeFilter
  MetaFilter : Option MetaFilter

/-- Legacy `defaultSettings`: only `MaxDepth` is set; the rest are Go zero
values. -/
def defaultSettings : walkSettings := ⟨10, false, false, none, none, none⟩

/-- A node of the legacy metadata graph, held in an arena so that Go pointer
identity is represented by the arena index: `parent` and `children` are
arena indices, mutated in place by the caller frame after a child returns. -/
structure LNode where
  core : MetaCore
  parent : Option Nat
  children : List Nat
deriving DecidableEq

/-- One recorded legacy callback invocation. -/
structure LEvent where
  meta : MetaSnap
  result : Option GoErr
deriving DecidableEq

/-- The mutable state of one legacy traversal: the visited pointer set, the
node arena, the per-path node cache (`cache[path]` is an arena index), and
the callback trace. -/
structure LState where
  visited : List Nat
  nodes : List LNode
  cache : List (String × Nat)
  trace : List LEvent

/-- `cache[path]` lookup; stores are consed, and each path is stored at most
once per traversal, so the first match is the entry. -/
def cacheGet (c : List (String × Nat)) (p : String) : Option Nat :=
  match c.find? (fun e => e.1 == p) with
  | some e => some e.2
  | none => none

/-- In-place update of an arena node. -/
def updNode (ns : List LNode) (i : Nat) (f : LNode → LNode) : List LNode :=
  match ns.get? i with
  | some n => ns.set i (f n)
  | none => ns

/-- `t.FieldByName(name)` on a struct value's type (direct fields). -/
def fieldByName (v : Val) (name : String) : Option FieldInfo :=
  match v with
  | .strct _ fields =>
      match fields.find? (fun fv => fv.1.fname == name) with
      | some fv => some fv.1
      | none => none
  | _ => none

/-- The legacy cycle guard (part_002 lines 88–94): unconditional for any
pointer, including the nil pointer's address `0`. -/
def lCycle (v : Val) (visited : List Nat) : Option (List Nat) :=
  match v with
  | .ptr _ addr =>
      if visited.contains addr then none else some (addr :: visited)
  | _ => some visited

/-- Result of one legacy `walkRecursive` call: a (possibly absent) arena
index, an error, or a panic. -/
inductive LRes where
  | ok : Option Nat → LRes
  | err : GoErr → LRes
  | panicked : LRes
deriving DecidableEq

/-- Result of the legacy child loop. -/
inductive LCRes where
  | ok : LCRes
  | err : GoErr → LCRes
  | panicked : LCRes
deriving DecidableEq

/-- The legacy kind dispatch (part_002 lines 121–174) as pending child
visits.  A pointer recurses into its pointee under the unchanged parent
path; `v.Elem().Interface()` on the nil pointer panics (there is no
`IsNil` guard here).  Unexported struct members are skipped
unconditionally. -/
def lChildrenOf (h : Heap) (v : Val) (path : String) : List Child :=
  match v with
  | .ptr _ addr =>
      if addr = 0 then [Child.panicAt] else [Child.visit path (heapGet h addr)]
  | .strct _ fields =>
      fields.filterMap (fun fv =>
        if fv.1.fPkgPath != "" then none
        else some (Child.visit (path ++ "." ++ fv.1.fname) fv.2))
  | .slice _ elems => idxChildren path 0 elems
  | .arr _ elems => idxChildren path 0 elems
  | .mp _ entries =>
      entries.map (fun kv => Child.visit (path ++ "[" ++ kv.1 ++ "]") kv.2)
  | _ => []

/-- The legacy child loop: visit each pending child; a returned node is
appended to the parent's `Children` and its `Parent` set to the parent, by
arena index; errors and panics abort immediately. -/
def lWalkChildren (rec : Val → String → LState → LState × LRes) (parent : Nat) :
    List Child → LState → LState × LCRes
  | [], st => (st, .ok)
  | Child.panicAt :: _, st => (st, .panicked)
  | Child.visit p v :: rest, st =>
    match rec v p st with
    | (st', .ok m?) =>
      let st'' :=
        match m? with
        | some c =>
            let withChild := updNode st'.nodes parent (fun n => { n with children := n.children ++ [c] })
            let withParent := updNode withChild c (fun n => { n with parent := some parent })
            { st' with nodes := withParent }
        | none => st'
      lWalkChildren rec parent rest st''
    | (st', .err e) => (st', .err e)
    | (st', .panicked) => (st', .panicked)

/-- The body of the legacy `walkRecursive` (part_002 lines 57–177), depth
guard realised by structural fuel exactly as for the current engine.
Order of effects per node, exactly as in the source: validity guard, type
filter, struct-tag check via `FieldByName(path)`, cycle guard, cache lookup,
node construction, meta filter, cache store, callback, kind dispatch. -/
def walkF (s : walkSettings) (h : Heap) (fn : UserFunc) :
    Nat → Val → Nat → String → LState → LState × LRes
  | 0, _, _, _, st => (st, .ok none)
  | fuel + 1, obj, depth, path, st =>
    if !obj.isValid then (st, .ok none)
    else
      let t := obj.typeOf
      if (match s.TypeFilter with | some f => !f t | none => false) then (st, .ok none)
      else if (match fieldByName obj path, s.TagFilter with
               | some fi, some tf => !tf fi.ftag
               | _, _ => false) then (st, .ok none)
      else
        match lCycle obj st.visited with
        | none => (st, .ok none)
        | some vis =>
          let st1 : LState := { st with visited := vis }
          match cacheGet st1.cache path with
          | some i => (st1, .ok (some i))
          | none =>
            let core : MetaCore :=
              ⟨mkName t, t, valueCanSet obj, t.pkgPath != "", path⟩
            if (match s.MetaFilter with | some f => !f (snapOf core) | none => false) then
              (st1, .ok none)
            else
              let nid := st1.nodes.length
              let st2 : LState :=
                { st1 with nodes := st1.nodes ++ [⟨core, none, []⟩],
                           cache := (path, nid) :: st1.cache,
                           trace := st1.trace ++ [⟨snapOf core, fn obj (snapOf core)⟩] }
              match fn obj (snapOf core) with
              | some e => (st2, .err e)
              | none =>
                match lWalkChildren (fun v p stc => walkF s h fn fuel v (depth + 1) p stc)
                    nid (lChildrenOf h obj path) st2 with
                | (st3, .ok) => (st3, .ok (some nid))
                | (st3, .err e) => (st3, .err e)
                | (st3, .panicked) => (st3, .panicked)

/-- The fuel realising the legacy depth guard. -/
def fuelFor (s : walkSettings) (depth : Nat) : Nat :=
  (s.MaxDepth + 1 - depth).toNat

/-- The legacy `walkRecursive` with its Go signature. -/
def walkRecursive (s : walkSettings) (h : Heap) (obj : Val) (fn : UserFunc)
    (depth : Nat) (path : String) (st : LState) : LState × LRes :=
  walkF s h fn (fuelFor s depth) obj depth path st

abbrev Opt := walkSettings → walkSettings

def MaxDepth (n : Int) : Opt := fun s => { s with MaxDepth := n }

def WithTypeFilter (f : TypeFilter) : Opt := fun s => { s with TypeFilter := some f }

def WithMetaFilter (f : MetaFilter) : Opt := fun s => { s with MetaFilter := some f }

/-- The legacy `Walk` return: the Go pair `(*ObjMeta, error)` (the node is
an arena index into the final state), or a panic. -/
inductive LWalkRet where
  | ret : Option Nat → Option GoErr → LWalkRet
  | panicked : LWalkRet
deriving DecidableEq

def initState : LState := ⟨[], [], [], []⟩

/-- The legacy `Walk` (part_002 lines 39–55), instrumented with the final
state. -/
def WalkSt (h : Heap) (obj : Val) (fn : UserFunc) (opts : List Opt) :
    LState × LWalkRet :=
  let s := opts.foldl (fun acc o => o acc) defaultSettings
  match obj.typeOfTop with
  | none => (initState, .panicked)
  | some t =>
    let rootPath := mkName t
    match walkRecursive s h obj fn 0 rootPath initState with
    | (st, .ok m) => (st, .ret m none)
    | (st, .err e) => (st, .ret none (some e))
    | (st, .panicked) => (st, .panicked)

/-- The legacy `Walk`. -/
def Walk (h : Heap) (obj : Val) (fn : UserFunc) (opts : List Opt) : LWalkRet :=
  (WalkSt h obj fn opts).2

end legacy

/-!
Specification-level definitions: the path-segment grammar generated by the
current engine, well-formedness of inputs (Go guarantees: struct field names
are distinct identifiers, hence nonempty and free of the separator
characters the path grammar uses), and concrete inputs for the claims.
-/

/-- One path segment appended by the current engine's kind dispatch. -/
inductive Seg where
  | fld : String → Seg
  | idx : Nat → Seg
  | deref : Seg
deriving DecidableEq

/-- The string the engine appends for one segment. -/
def renderSeg : Seg → String
  | .fld s => "." ++ s
  | .idx n => "[" ++ toString n ++ "]"
  | .deref => ".*"

/-- The string appended along a chain of segments. -/
def renderSegs : List Seg → String
  | [] => ""
  | s :: rest => renderSeg s ++ renderSegs rest

/-- The separator characters of the path grammar. -/
def sepChars : List Char := ['.', '[', ']', '*']

/-- A Go identifier as the path grammar needs it: nonempty and free of
separator characters (true of every legal Go field name). -/
def goodNameB (s : String) : Bool :=
  !s.data.isEmpty && s.data.all (fun c => !sepChars.contains c)

/-- A segment whose rendering is unambiguous. -/
def GoodSeg : Seg → Prop
  | .fld s => goodNameB s = true
  | .idx _ => True
  | .deref => True

/-- A map-free value whose struct field names are distinct Go identifiers.
Go structs cannot repeat a field name, and field names are identifiers; map
values are excluded because distinct map keys may share a `%v` rendering. -/
inductive GoodVal : Val → Prop where
  | invalid : GoodVal .invalid
  | base : ∀ t, GoodVal (.base t)
  | ptr : ∀ t a, GoodVal (.ptr t a)
  | strct : ∀ t fs, (∀ fv ∈ fs, goodNameB fv.1.fname = true) →
      (∀ fv ∈ fs, GoodVal fv.2) →
      (fs.map (fun fv => fv.1.fname)).Nodup → GoodVal (.strct t fs)
  | slice : ∀ t es, (∀ v ∈ es, GoodVal v) → GoodVal (.slice t es)
  | arr : ∀ t es, (∀ v ∈ es, GoodVal v) → GoodVal (.arr t es)

/-- Every heap entry is good. -/
def GoodHeap (h : Heap) : Prop := ∀ e ∈ h, GoodVal e.2

/-- The decimal digits of `n`, most significant first, as `Nat.repr`
produces them (proved below to coincide with `Nat.toDigits 10 n`). -/
def digitsList (n : Nat) : List Char :=
  if _h : n < 10 then [Nat.digitChar n]
  else digitsList (n / 10) ++ [Nat.digitChar (n % 10)]
decreasing_by exact Nat.div_lt_self (by omega) (by omega)

/-- Decimal value of a digit string, for the injectivity proof. -/
def dval (l : List Char) : Nat :=
  l.foldl (fun a c => 10 * a + (c.toNat - 48)) 0

/-- A callback list none of whose members ever reports an error. -/
def NeverErr (fns : List gowalker.UserFunc) : Prop :=
  ∀ fn ∈ fns, ∀ v m, fn v m = none

/-- Two walker.go settings records that agree except for the callback
list. -/
def AgreeExceptFuncs (s₁ s₂ : gowalker.walkSettings) : Prop :=
  s₁.maxDepth = s₂.maxDepth ∧ s₁.includePrivate = s₂.includePrivate ∧
  s₁.onlySettable = s₂.onlySettable ∧ s₁.tagFilter = s₂.tagFilter ∧
  s₁.typeFilter = s₂.typeFilter ∧ s₁.metaFilter = s₂.metaFilter

/-! Concrete inputs used by the claims. -/

def exInt : GoType := ⟨"int", "int", ""⟩

def exString : GoType := ⟨"string", "string", ""⟩

/-- A named struct type of package `pkg` with an exported `int` member
`Field1` and an exported `string` member `Field2`. -/
def exTwoField : Val :=
  .strct ⟨"T", "pkg.T", "pkg"⟩
    [(⟨"Field1", "", ""⟩, .base exInt), (⟨"Field2", "", ""⟩, .base exString)]

/-- A struct with a single unexported member `a` of type `int`. -/
def exPriv : Val :=
  .strct ⟨"T", "pkg.T", "pkg"⟩ [(⟨"a", "pkg", ""⟩, .base exInt)]

/-- Three-level nesting: `R.Mid.Inner.X`. -/
def exInner : Val := .strct ⟨"Inner", "pkg.Inner", "pkg"⟩ [(⟨"X", "", ""⟩, .base exInt)]

def exMid : Val := .strct ⟨"Mid", "pkg.Mid", "pkg"⟩ [(⟨"Inner", "", ""⟩, exInner)]

def exRoot3 : Val := .strct ⟨"R", "pkg.R", "pkg"⟩ [(⟨"Mid", "", ""⟩, exMid)]

/-- A self-referential graph: address 1 holds a struct whose `Self` member
points back to address 1. -/
def exPC : GoType := ⟨"", "*pkg.C", ""⟩

def exCycleHeap : Heap :=
  [(1, .strct ⟨"C", "pkg.C", "pkg"⟩ [(⟨"Self", "", ""⟩, .ptr exPC 1)])]

def exCycleRoot : Val := .ptr exPC 1

/-- A `map[interface{}]interface{}` with keys `1` (an int) and `"1"` (a
string): two distinct keys, two distinct entry values, one shared `%v`
rendering. -/
def exDupMap : Val :=
  .mp ⟨"", "map[interface {}]interface {}", ""⟩
    [("1", .base exInt), ("1", .base exString)]

/-- A recording callback that never fails (the trace instrumentation
records every invocation regardless of the callback body). -/
def exOkCb : gowalker.UserFunc := fun _ _ => none

/-- A callback failing with error `7` exactly at path `T.Field2`. -/
def exErrCb : gowalker.UserFunc :=
  fun _ m => if m.Path == "T.Field2" then some 7 else none

/-- A meta filter rejecting exactly the node at path `T.Field2`. -/
def exRejectF2 : MetaSnap → Bool := fun m => !(m.Path == "T.Field2")

/-- Renderings of segment chains start with `'.'` or `'['` (or are empty) —
the fact that makes the path grammar a deterministic tokenization. -/
def SegStart (l : List Char) : Prop :=
  l = [] ∨ ∃ c rest, l = c :: rest ∧ (c = '.' ∨ c = '[')

/-- Every segment of the chain is unambiguous. -/
def GoodSegs (l : List Seg) : Prop := ∀ s ∈ l, GoodSeg s

/-- Paths of legacy callback invocations in trace order. -/
def legacyTracePaths (st : legacy.LState) : List String :=
  st.trace.map (fun e => e.meta.Path)

/-- The error component of a traversal result. -/
def gowalker.WRes.errOf : gowalker.WRes → Option GoErr
  | .err e => some e
  | _ => none

/-- The error component of a child-loop result. -/
def gowalker.CRes.errOf : gowalker.CRes → Option GoErr
  | .err e => some e
  | _ => none

/-- How the callback trace may evolve across a traversal step: new events
are appended; all of them returned nil, except that when the step reports
callback error `e` the last appended event returned exactly `e` and nothing
was appended after it. -/
def TraceEvolves (tr tr' : List gowalker.Event) : Option GoErr → Prop
  | some e => ∃ t ev, tr' = tr ++ (t ++ [ev]) ∧ (∀ x ∈ t, x.result = none) ∧
      ev.result = some e
  | none => ∃ t, tr' = tr ++ t ∧ ∀ x ∈ t, x.result = none

/-- The shape of every flat-map entry the current engine stores: the node
was built by the constructor at walker.go lines 114–121, so its `Name`,
`CanSet`, `IsPrivate` are computed from its own `Type`, and its `Path` field
equals its flat-map key. -/
def BuiltEntry (pc : String × MetaCore) : Prop :=
  pc.2.Name = mkName pc.2.Ty ∧ pc.2.CanSet = false ∧
  pc.2.IsPrivate = (pc.2.Ty.pkgPath != "") ∧ pc.2.Path = pc.1

/-- The pending children of one node, related to the path segments they
append: every pending visit extends the parent path `p` by the rendering of
one unambiguous segment and carries a good value; `panicAt` entries append
nothing (the child loop stops there). -/
inductive VisOK (p : String) : List Child → List Seg → Prop where
  | nil : VisOK p [] []
  | vis : ∀ seg v rest segs, GoodSeg seg → GoodVal v → VisOK p rest segs →
      VisOK p (Child.visit (p ++ renderSeg seg) v :: rest) (seg :: segs)
  | panic : ∀ rest segs, VisOK p rest segs → VisOK p (Child.panicAt :: rest) segs

/-! ## Theorems -/

/-! ### Decimal rendering: `toString` on `Nat` yields nonempty digit
strings, injectively.  (`Nat.repr` is `(Nat.toDigits 10 n).asString`; we
relate `Nat.toDigitsCore` to the structural `digitsList` and prove a
round-trip through `dval`.) -/

theorem toDigitsCore_eq_digitsList (f : Nat) :
    ∀ (n : Nat) (ds : List Char), n < f →
      Nat.toDigitsCore 10 f n ds = digitsList n ++ ds := by
  induction f with
  | zero => intro n ds h; exact absurd h (Nat.not_lt_zero n)
  | succ f ih =>
    intro n ds h
    rw [Nat.toDigitsCore]
    by_cases h10 : n / 10 = 0
    · have hn : n < 10 := by omega
      rw [if_pos h10, digitsList.eq_def, dif_pos hn]
      have : n % 10 = n := Nat.mod_eq_of_lt hn
      rw [this]
      rfl
    · have hn : ¬ n < 10 := by omega
      rw [if_neg h10, ih (n / 10) _ (by omega)]
      conv_rhs => rw [digitsList.eq_def]
      rw [dif_neg hn]
      simp

theorem toDigits_eq_digitsList (n : Nat) : Nat.toDigits 10 n = digitsList n := by
  rw [Nat.toDigits, toDigitsCore_eq_digitsList (n + 1) n [] (Nat.lt_succ_self n),
    List.append_nil]

theorem digitChar_mem (d : Nat) (h : d < 10) :
    Nat.digitChar d ∈ ['0', '1', '2', '3', '4', '5', '6', '7', '8', '9'] := by
  interval_cases d <;> decide

theorem digitsList_mem (n : Nat) :
    ∀ c ∈ digitsList n, c ∈ ['0', '1', '2', '3', '4', '5', '6', '7', '8', '9'] := by
  induction n using Nat.strong_induction_on with
  | _ n ih =>
    intro c hc
    rw [digitsList.eq_def] at hc
    split at hc
    · simp at hc
      subst hc
      exact digitChar_mem n (by omega)
    · rcases List.mem_append.1 hc with h1 | h2
      · exact ih (n / 10) (Nat.div_lt_self (by omega) (by omega)) c h1
      · simp at h2
        subst h2
        exact digitChar_mem (n % 10) (Nat.mod_lt n (by omega))

theorem digitChar_toNat (d : Nat) (h : d < 10) : (Nat.digitChar d).toNat - 48 = d := by
  interval_cases d <;> decide

theorem dval_append_one (l : List Char) (c : Char) :
    dval (l ++ [c]) = 10 * dval l + (c.toNat - 48) := by
  simp [dval, List.foldl_append]

theorem dval_digitsList (n : Nat) : dval (digitsList n) = n := by
  induction n using Nat.strong_induction_on with
  | _ n ih =>
    rw [digitsList.eq_def]
    split
    · rename_i hn
      show dval [Nat.digitChar n] = n
      have h0 : dval [Nat.digitChar n] = 10 * 0 + ((Nat.digitChar n).toNat - 48) := rfl
      rw [h0, digitChar_toNat n hn]
      omega
    · rename_i hn
      rw [dval_append_one, ih (n / 10) (Nat.div_lt_self (by omega) (by omega)),
        digitChar_toNat (n % 10) (Nat.mod_lt n (by omega))]
      omega

theorem digitsList_inj {m n : Nat} (h : digitsList m = digitsList n) : m = n := by
  rw [← dval_digitsList m, h, dval_digitsList]

theorem natToString_data (n : Nat) : (toString n).data = digitsList n := by
  show (Nat.repr n).data = digitsList n
  rw [Nat.repr, toDigits_eq_digitsList]
  rfl

theorem natToString_inj {m n : Nat} (h : toString m = toString n) : m = n := by
  apply digitsList_inj
  rw [← natToString_data, ← natToString_data, h]

/-! ### The path grammar is a deterministic tokenization: rendering a chain
of unambiguous segments is injective. -/

theorem goodName_spec {s : String} (h : goodNameB s = true) :
    s.data ≠ [] ∧ ∀ c ∈ s.data, ¬ c ∈ sepChars := by
  unfold goodNameB at h
  rw [Bool.and_eq_true] at h
  constructor
  · intro he
    rw [he] at h
    simp at h
  · intro c hc
    have := List.all_eq_true.1 h.2 c hc
    simp at this
    simp [this]

theorem natToString_no_sep (n : Nat) : ∀ c ∈ (toString n).data, ¬ c ∈ sepChars := by
  intro c hc
  rw [natToString_data] at hc
  have h := digitsList_mem n c hc
  fin_cases h <;> decide

theorem natToString_ne_nil (n : Nat) : (toString n).data ≠ [] := by
  rw [natToString_data, digitsList.eq_def]
  split
  · simp
  · simp

theorem renderSeg_data_fld (s : String) : (renderSeg (.fld s)).data = '.' :: s.data := by
  simp [renderSeg]

theorem renderSeg_data_idx (n : Nat) :
    (renderSeg (.idx n)).data = '[' :: ((toString n).data ++ [']']) := by
  simp [renderSeg]

theorem renderSeg_data_deref : (renderSeg Seg.deref).data = ['.', '*'] := rfl

theorem renderSeg_ne_nil (s : Seg) : (renderSeg s).data ≠ [] := by
  cases s <;> simp [renderSeg]

theorem renderSegs_data_cons (s : Seg) (l : List Seg) :
    (renderSegs (s :: l)).data = (renderSeg s).data ++ (renderSegs l).data := by
  simp [renderSegs]

theorem renderSegs_segStart (l : List Seg) : SegStart (renderSegs l).data := by
  cases l with
  | nil => exact Or.inl rfl
  | cons s rest =>
    right
    rw [renderSegs_data_cons]
    cases s with
    | fld nm =>
      rw [renderSeg_data_fld]
      exact ⟨'.', _, rfl, Or.inl rfl⟩
    | idx n =>
      rw [renderSeg_data_idx]
      exact ⟨'[', _, rfl, Or.inr rfl⟩
    | deref =>
      rw [renderSeg_data_deref]
      exact ⟨'.', _, rfl, Or.inl rfl⟩

theorem nameCancel :
    ∀ (n1 n2 r1 r2 : List Char), (∀ c ∈ n1, ¬ c ∈ sepChars) → (∀ c ∈ n2, ¬ c ∈ sepChars) →
      SegStart r1 → SegStart r2 → n1 ++ r1 = n2 ++ r2 → n1 = n2 ∧ r1 = r2 := by
  intro n1
  induction n1 with
  | nil =>
    intro n2 r1 r2 _ hg2 hs1 _ heq
    cases n2 with
    | nil => exact ⟨rfl, heq⟩
    | cons d n2' =>
      exfalso
      simp only [List.nil_append, List.cons_append] at heq
      rcases hs1 with h | ⟨c, rest, hr, hc⟩
      · rw [h] at heq
        exact List.cons_ne_nil _ _ heq.symm
      · rw [hr] at heq
        injection heq with h1 _
        apply hg2 d (by simp)
        rw [← h1]
        rcases hc with h | h <;> simp [sepChars, h]
  | cons c n1' ih =>
    intro n2 r1 r2 hg1 hg2 hs1 hs2 heq
    cases n2 with
    | nil =>
      exfalso
      simp only [List.nil_append, List.cons_append] at heq
      rcases hs2 with h | ⟨e, rest, hr, hc⟩
      · rw [h] at heq
        exact List.cons_ne_nil _ _ heq
      · rw [hr] at heq
        injection heq with h1 _
        apply hg1 c (by simp)
        rw [h1]
        rcases hc with h | h <;> simp [sepChars, h]
    | cons d n2' =>
      simp only [List.cons_append] at heq
      injection heq with h1 h2
      have hrec := ih n2' r1 r2 (fun x hx => hg1 x (by simp [hx]))
        (fun x hx => hg2 x (by simp [hx])) hs1 hs2 h2
      exact ⟨by rw [h1, hrec.1], hrec.2⟩

theorem digitCancel :
    ∀ (d1 d2 r1 r2 : List Char), (∀ c ∈ d1, c ≠ ']') → (∀ c ∈ d2, c ≠ ']') →
      d1 ++ (']' :: r1) = d2 ++ (']' :: r2) → d1 = d2 ∧ r1 = r2 := by
  intro d1
  induction d1 with
  | nil =>
    intro d2 r1 r2 _ hg2 heq
    cases d2 with
    | nil =>
      simp only [List.nil_append] at heq
      injection heq with _ h2
      exact ⟨rfl, h2⟩
    | cons e d2' =>
      exfalso
      simp only [List.nil_append, List.cons_append] at heq
      injection heq with h1 _
      exact hg2 e (by simp) h1.symm
  | cons c d1' ih =>
    intro d2 r1 r2 hg1 hg2 heq
    cases d2 with
    | nil =>
      exfalso
      simp only [List.nil_append, List.cons_append] at heq
      injection heq with h1 _
      exact hg1 c (by simp) h1
    | cons e d2' =>
      simp only [List.cons_append] at heq
      injection heq with h1 h2
      have hrec := ih d2' r1 r2 (fun x hx => hg1 x (by simp [hx]))
        (fun x hx => hg2 x (by simp [hx])) h2
      exact ⟨by rw [h1, hrec.1], hrec.2⟩

theorem segHead {a b : Seg} {ra rb : List Char} (hga : GoodSeg a) (hgb : GoodSeg b)
    (hsa : SegStart ra) (hsb : SegStart rb)
    (heq : (renderSeg a).data ++ ra = (renderSeg b).data ++ rb) : a = b ∧ ra = rb := by
  cases a with
  | fld s1 =>
    cases b with
    | fld s2 =>
      rw [renderSeg_data_fld, renderSeg_data_fld] at heq
      simp only [List.cons_append] at heq
      injection heq with _ h2
      have g1 := goodName_spec hga
      have g2 := goodName_spec hgb
      have hrec := nameCancel s1.data s2.data ra rb g1.2 g2.2 hsa hsb h2
      exact ⟨by rw [String.ext hrec.1], hrec.2⟩
    | idx n =>
      rw [renderSeg_data_fld, renderSeg_data_idx] at heq
      simp only [List.cons_append] at heq
      injection heq with h1 _
      exact absurd h1 (by decide)
    | deref =>
      rw [renderSeg_data_fld, renderSeg_data_deref] at heq
      simp only [List.cons_append] at heq
      injection heq with _ h2
      exfalso
      have g1 := goodName_spec hga
      rcases hd : s1.data with _ | ⟨c, rest⟩
      · exact g1.1 hd
      · rw [hd] at h2
        simp only [List.cons_append] at h2
        injection h2 with h3 _
        apply g1.2 c (by rw [hd]; simp)
        simp [sepChars, h3]
  | idx n1 =>
    cases b with
    | fld s2 =>
      rw [renderSeg_data_idx, renderSeg_data_fld] at heq
      simp only [List.cons_append] at heq
      injection heq with h1 _
      exact absurd h1 (by decide)
    | idx n2 =>
      rw [renderSeg_data_idx, renderSeg_data_idx] at heq
      simp only [List.cons_append, List.append_assoc, List.singleton_append] at heq
      injection heq with _ h2
      have hrec := digitCancel (toString n1).data (toString n2).data ra rb
        (fun c hc => by
          have := natToString_no_sep n1 c hc
          simp [sepChars] at this
          simp [this])
        (fun c hc => by
          have := natToString_no_sep n2 c hc
          simp [sepChars] at this
          simp [this])
        h2
      have hn := natToString_inj (String.ext hrec.1)
      exact ⟨by rw [hn], hrec.2⟩
    | deref =>
      rw [renderSeg_data_idx, renderSeg_data_deref] at heq
      simp only [List.cons_append] at heq
      injection heq with h1 _
      exact absurd h1 (by decide)
  | deref =>
    cases b with
    | fld s2 =>
      rw [renderSeg_data_deref, renderSeg_data_fld] at heq
      simp only [List.cons_append] at heq
      injection heq with _ h2
      exfalso
      have g2 := goodName_spec hgb
      rcases hd : s2.data with _ | ⟨c, rest⟩
      · exact g2.1 hd
      · rw [hd] at h2
        simp only [List.cons_append] at h2
        injection h2 with h3 _
        apply g2.2 c (by rw [hd]; simp)
        simp [sepChars, ← h3]
    | idx n =>
      rw [renderSeg_data_deref, renderSeg_data_idx] at heq
      simp only [List.cons_append] at heq
      injection heq with h1 _
      exact absurd h1 (by decide)
    | deref =>
      rw [renderSeg_data_deref] at heq
      simp only [List.cons_append] at heq
      injection heq with _ h2
      injection h2 with _ h3
      exact ⟨rfl, h3⟩

theorem renderSegs_inj :
    ∀ (l1 l2 : List Seg), GoodSegs l1 → GoodSegs l2 →
      renderSegs l1 = renderSegs l2 → l1 = l2 := by
  intro l1
  induction l1 with
  | nil =>
    intro l2 _ _ heq
    cases l2 with
    | nil => rfl
    | cons b r2 =>
      exfalso
      have hd : (renderSegs ([] : List Seg)).data = (renderSegs (b :: r2)).data := by
        rw [heq]
      rw [renderSegs_data_cons] at hd
      have h0 : (renderSegs ([] : List Seg)).data = [] := rfl
      rw [h0] at hd
      exact renderSeg_ne_nil b (List.append_eq_nil.1 hd.symm).1
  | cons a r1 ih =>
    intro l2 hg1 hg2 heq
    cases l2 with
    | nil =>
      exfalso
      have hd : (renderSegs (a :: r1)).data = (renderSegs ([] : List Seg)).data := by
        rw [heq]
      rw [renderSegs_data_cons] at hd
      have h0 : (renderSegs ([] : List Seg)).data = [] := rfl
      rw [h0] at hd
      exact renderSeg_ne_nil a (List.append_eq_nil.1 hd).1
    | cons b r2 =>
      have hd : (renderSegs (a :: r1)).data = (renderSegs (b :: r2)).data := by rw [heq]
      rw [renderSegs_data_cons, renderSegs_data_cons] at hd
      have hh := segHead (hg1 a (by simp)) (hg2 b (by simp))
        (renderSegs_segStart r1) (renderSegs_segStart r2) hd
      have ht := ih r2 (fun s hs => hg1 s (by simp [hs])) (fun s hs => hg2 s (by simp [hs]))
        (String.ext hh.2)
      rw [hh.1, ht]

/-! ### Trace evolution: callbacks run in order, and an error ends the
trace immediately. -/

namespace gowalker

theorem runFuncs_obs : ∀ (fns : List UserFunc) (v : Val) (m : MetaSnap) (st : WState),
    (runFuncs fns v m st).1.visited = st.visited ∧ (runFuncs fns v m st).1.flat = st.flat ∧
    ∃ nt, (runFuncs fns v m st).1.trace = st.trace ++ nt := by
  intro fns
  induction fns with
  | nil => intro v m st; exact ⟨rfl, rfl, [], by simp [runFuncs]⟩
  | cons fn rest ih =>
    intro v m st
    cases hr : fn v m with
    | some e =>
      simp only [runFuncs, hr]
      exact ⟨by simp, by simp, [⟨v, m, some e⟩], by simp⟩
    | none =>
      simp only [runFuncs, hr]
      obtain ⟨h1, h2, nt, h3⟩ := ih v m { st with trace := st.trace ++ [⟨v, m, none⟩] }
      refine ⟨by simpa using h1, by simpa using h2, ⟨v, m, none⟩ :: nt, ?_⟩
      rw [h3]
      simp

theorem traceEvolves_refl (tr : List Event) : TraceEvolves tr tr none :=
  ⟨[], by simp, by simp⟩

theorem traceEvolves_trans {tr tr' tr'' : List Event} {e? : Option GoErr}
    (h1 : TraceEvolves tr tr' none) (h2 : TraceEvolves tr' tr'' e?) :
    TraceEvolves tr tr'' e? := by
  obtain ⟨t1, he1, hn1⟩ := h1
  cases e? with
  | none =>
    obtain ⟨t2, he2, hn2⟩ := h2
    refine ⟨t1 ++ t2, by rw [he2, he1]; simp, ?_⟩
    intro x hx
    rcases List.mem_append.1 hx with h | h
    · exact hn1 x h
    · exact hn2 x h
  | some e =>
    obtain ⟨t2, ev, he2, hn2, hev⟩ := h2
    refine ⟨t1 ++ t2, ev, by rw [he2, he1]; simp, ?_, hev⟩
    intro x hx
    rcases List.mem_append.1 hx with h | h
    · exact hn1 x h
    · exact hn2 x h

theorem runFuncs_trace : ∀ (fns : List UserFunc) (v : Val) (m : MetaSnap) (st : WState),
    TraceEvolves st.trace (runFuncs fns v m st).1.trace (runFuncs fns v m st).2 := by
  intro fns
  induction fns with
  | nil => intro v m st; exact ⟨[], by simp [runFuncs], by simp⟩
  | cons fn rest ih =>
    intro v m st
    cases hr : fn v m with
    | some e =>
      simp only [runFuncs, hr]
      exact ⟨[], ⟨v, m, some e⟩, by simp, by simp, rfl⟩
    | none =>
      simp only [runFuncs, hr]
      have h := ih v m { st with trace := st.trace ++ [⟨v, m, none⟩] }
      refine traceEvolves_trans ⟨[⟨v, m, none⟩], rfl, ?_⟩ h
      intro x hx
      simp at hx
      rw [hx]

theorem walkChildren_trace (rec : Val → String → WState → WState × WRes)
    (hrec : ∀ v p st, TraceEvolves st.trace (rec v p st).1.trace (rec v p st).2.errOf) :
    ∀ (cs : List Child) (st : WState),
      TraceEvolves st.trace (walkChildren rec cs st).1.trace
        (walkChildren rec cs st).2.errOf := by
  intro cs
  induction cs with
  | nil => intro st; exact traceEvolves_refl _
  | cons c rest ih =>
    intro st
    cases c with
    | panicAt => exact traceEvolves_refl _
    | visit p v =>
      have h1 := hrec v p st
      simp only [walkChildren]
      cases hres : rec v p st with
      | mk st' r =>
        rw [hres] at h1
        cases r with
        | ok m? =>
          simp only
          have h2 := ih st'
          cases hcs : walkChildren rec rest st' with
          | mk st'' cr =>
            rw [hcs] at h2
            cases cr with
            | ok ms => exact traceEvolves_trans h1 h2
            | err e => exact traceEvolves_trans h1 h2
            | panicked => exact traceEvolves_trans h1 h2
        | err e => exact h1
        | panicked => exact h1

theorem walkF_trace (s : walkSettings) (h : Heap) :
    ∀ (fuel : Nat) (obj : Val) (depth : Nat) (path : String) (st : WState),
      TraceEvolves st.trace (walkF s h fuel obj depth path st).1.trace
        (walkF s h fuel obj depth path st).2.errOf := by
  intro fuel
  induction fuel with
  | zero => intro obj depth path st; exact traceEvolves_refl _
  | succ fuel ih =>
    intro obj depth path st
    by_cases hv : obj.isValid
    · simp only [walkF, hv]
      simp only [Bool.not_true, Bool.false_eq_true, if_false]
      cases hcy : cycleCheck obj st.visited with
      | none => exact traceEvolves_refl _
      | some vis =>
        simp only
        set core : MetaCore :=
          ⟨mkName obj.typeOf, obj.typeOf, valueCanSet obj, obj.typeOf.pkgPath != "", path⟩ with hcore
        set st1 : WState := { st with visited := vis, flat := st.flat ++ [(path, core)] } with hst1
        have hrt := runFuncs_trace s.userFuncs obj (snapOf core) st1
        have hrt0 : TraceEvolves st.trace (runFuncs s.userFuncs obj (snapOf core) st1).1.trace
            (runFuncs s.userFuncs obj (snapOf core) st1).2 := by
          have : st1.trace = st.trace := rfl
          rw [← this]
          exact hrt
        cases hrun : runFuncs s.userFuncs obj (snapOf core) st1 with
        | mk st2 e? =>
          rw [hrun] at hrt0
          cases e? with
          | some e => simpa using hrt0
          | none =>
            simp only
            have hct := walkChildren_trace (fun v p stc => walkF s h fuel v (depth + 1) p stc)
              (fun v p stc => ih v (depth + 1) p stc) (childrenOf s h obj path) st2
            cases hcw : walkChildren (fun v p stc => walkF s h fuel v (depth + 1) p stc)
                (childrenOf s h obj path) st2 with
            | mk st3 cr =>
              rw [hcw] at hct
              cases cr with
              | ok kids => exact traceEvolves_trans hrt0 hct
              | err e => exact traceEvolves_trans hrt0 hct
              | panicked => exact traceEvolves_trans hrt0 hct
    · simp only [walkF, hv]
      simp only [Bool.not_false, if_true]
      exact traceEvolves_refl _

end gowalker

/-! ### Callback snapshots: every invocation sees a metadata copy with nil
Parent and empty Children. -/

namespace gowalker

theorem runFuncs_trace_mem : ∀ (fns : List UserFunc) (v : Val) (m : MetaSnap) (st : WState)
    (ev : Event), ev ∈ (runFuncs fns v m st).1.trace → ev ∈ st.trace ∨ ev.meta = m := by
  intro fns
  induction fns with
  | nil => intro v m st ev hev; exact Or.inl hev
  | cons fn rest ih =>
    intro v m st ev hev
    cases hr : fn v m with
    | some e =>
      rw [runFuncs, hr] at hev
      simp only at hev
      rcases List.mem_append.1 hev with h | h
      · exact Or.inl h
      · simp at h
        right
        rw [h]
    | none =>
      rw [runFuncs, hr] at hev
      simp only at hev
      rcases ih v m _ ev hev with h | h
      · rcases List.mem_append.1 h with h' | h'
        · exact Or.inl h'
        · simp at h'
          right
          rw [h']
      · exact Or.inr h

theorem walkChildren_snap (rec : Val → String → WState → WState × WRes)
    (hrec : ∀ v p st ev, ev ∈ (rec v p st).1.trace →
      ev ∈ st.trace ∨ (ev.meta.Parent = none ∧ ev.meta.Children = [])) :
    ∀ (cs : List Child) (st : WState) (ev : Event),
      ev ∈ (walkChildren rec cs st).1.trace →
      ev ∈ st.trace ∨ (ev.meta.Parent = none ∧ ev.meta.Children = []) := by
  intro cs
  induction cs with
  | nil => intro st ev hev; exact Or.inl hev
  | cons c rest ih =>
    intro st ev hev
    cases c with
    | panicAt => exact Or.inl hev
    | visit p v =>
      rw [walkChildren] at hev
      cases hres : rec v p st with
      | mk st' r =>
        rw [hres] at hev
        cases r with
        | ok m? =>
          simp only at hev
          cases hcs : walkChildren rec rest st' with
          | mk st'' cr =>
            rw [hcs] at hev
            cases cr with
            | ok ms =>
              simp only at hev
              rcases ih st' ev (by rw [hcs]; exact hev) with h | h
              · rcases hrec v p st ev (by rw [hres]; exact h) with h' | h'
                · exact Or.inl h'
                · exact Or.inr h'
              · exact Or.inr h
            | err e =>
              simp only at hev
              rcases ih st' ev (by rw [hcs]; exact hev) with h | h
              · rcases hrec v p st ev (by rw [hres]; exact h) with h' | h'
                · exact Or.inl h'
                · exact Or.inr h'
              · exact Or.inr h
            | panicked =>
              simp only at hev
              rcases ih st' ev (by rw [hcs]; exact hev) with h | h
              · rcases hrec v p st ev (by rw [hres]; exact h) with h' | h'
                · exact Or.inl h'
                · exact Or.inr h'
              · exact Or.inr h
        | err e =>
          simp only at hev
          rcases hrec v p st ev (by rw [hres]; exact hev) with h | h
          · exact Or.inl h
          · exact Or.inr h
        | panicked =>
          simp only at hev
          rcases hrec v p st ev (by rw [hres]; exact hev) with h | h
          · exact Or.inl h
          · exact Or.inr h

theorem walkF_snap (s : walkSettings) (h : Heap) :
    ∀ (fuel : Nat) (obj : Val) (depth : Nat) (path : String) (st : WState) (ev : Event),
      ev ∈ (walkF s h fuel obj depth path st).1.trace →
      ev ∈ st.trace ∨ (ev.meta.Parent = none ∧ ev.meta.Children = []) := by
  intro fuel
  induction fuel with
  | zero => intro obj depth path st ev hev; exact Or.inl hev
  | succ fuel ih =>
    intro obj depth path st ev hev
    by_cases hv : obj.isValid
    · rw [walkF] at hev
      simp only [hv, Bool.not_true, Bool.false_eq_true, if_false] at hev
      cases hcy : cycleCheck obj st.visited with
      | none => rw [hcy] at hev; exact Or.inl hev
      | some vis =>
        rw [hcy] at hev
        simp only at hev
        set core : MetaCore :=
          ⟨mkName obj.typeOf, obj.typeOf, valueCanSet obj, obj.typeOf.pkgPath != "", path⟩
          with hcore
        set st1 : WState := { st with visited := vis, flat := st.flat ++ [(path, core)] }
          with hst1
        cases hrun : runFuncs s.userFuncs obj (snapOf core) st1 with
        | mk st2 e? =>
          rw [hrun] at hev
          have hmem : ∀ x : Event, x ∈ st2.trace →
              x ∈ st.trace ∨ (x.meta.Parent = none ∧ x.meta.Children = []) := by
            intro x hx
            have := runFuncs_trace_mem s.userFuncs obj (snapOf core) st1 x
              (by rw [hrun]; exact hx)
            rcases this with h' | h'
            · exact Or.inl h'
            · right
              rw [h']
              exact ⟨rfl, rfl⟩
          cases e? with
          | some e => exact hmem ev hev
          | none =>
            simp only at hev
            cases hcw : walkChildren (fun v p stc => walkF s h fuel v (depth + 1) p stc)
                (childrenOf s h obj path) st2 with
            | mk st3 cr =>
              rw [hcw] at hev
              have hall := walkChildren_snap
                (fun v p stc => walkF s h fuel v (depth + 1) p stc)
                (fun v p stc x hx => ih v (depth + 1) p stc x hx)
                (childrenOf s h obj path) st2 ev
              cases cr with
              | ok kids =>
                simp only at hev
                rcases hall (by rw [hcw]; exact hev) with h' | h'
                · exact hmem ev h'
                · exact Or.inr h'
              | err e =>
                simp only at hev
                rcases hall (by rw [hcw]; exact hev) with h' | h'
                · exact hmem ev h'
                · exact Or.inr h'
              | panicked =>
                simp only at hev
                rcases hall (by rw [hcw]; exact hev) with h' | h'
                · exact hmem ev h'
                · exact Or.inr h'
    · rw [walkF] at hev
      simp only [hv, Bool.not_false, if_true] at hev
      exact Or.inl hev

end gowalker

/-! ### Flat-map entries all have the constructor shape of walker.go lines
114 to 121. -/

namespace gowalker

theorem walkChildren_flat_built (rec : Val → String → WState → WState × WRes)
    (hrec : ∀ v p st pc, pc ∈ (rec v p st).1.flat → pc ∈ st.flat ∨ BuiltEntry pc) :
    ∀ (cs : List Child) (st : WState) (pc : String × MetaCore),
      pc ∈ (walkChildren rec cs st).1.flat → pc ∈ st.flat ∨ BuiltEntry pc := by
  intro cs
  induction cs with
  | nil => intro st pc hpc; exact Or.inl hpc
  | cons c rest ih =>
    intro st pc hpc
    cases c with
    | panicAt => exact Or.inl hpc
    | visit p v =>
      rw [walkChildren] at hpc
      cases hres : rec v p st with
      | mk st' r =>
        rw [hres] at hpc
        have step : ∀ x, x ∈ st'.flat → x ∈ st.flat ∨ BuiltEntry x := by
          intro x hx
          exact hrec v p st x (by rw [hres]; exact hx)
        cases r with
        | ok m? =>
          simp only at hpc
          cases hcs : walkChildren rec rest st' with
          | mk st'' cr =>
            rw [hcs] at hpc
            have hrest : pc ∈ st''.flat → pc ∈ st.flat ∨ BuiltEntry pc := by
              intro hx
              rcases ih st' pc (by rw [hcs]; exact hx) with h' | h'
              · exact step pc h'
              · exact Or.inr h'
            cases cr with
            | ok ms => exact hrest (by simpa using hpc)
            | err e => exact hrest (by simpa using hpc)
            | panicked => exact hrest (by simpa using hpc)
        | err e => exact step pc (by simpa using hpc)
        | panicked => exact step pc (by simpa using hpc)

theorem walkF_flat_built (s : walkSettings) (h : Heap) :
    ∀ (fuel : Nat) (obj : Val) (depth : Nat) (path : String) (st : WState)
      (pc : String × MetaCore),
      pc ∈ (walkF s h fuel obj depth path st).1.flat → pc ∈ st.flat ∨ BuiltEntry pc := by
  intro fuel
  induction fuel with
  | zero => intro obj depth path st pc hpc; exact Or.inl hpc
  | succ fuel ih =>
    intro obj depth path st pc hpc
    by_cases hv : obj.isValid
    · rw [walkF] at hpc
      simp only [hv, Bool.not_true, Bool.false_eq_true, if_false] at hpc
      cases hcy : cycleCheck obj st.visited with
      | none => rw [hcy] at hpc; exact Or.inl hpc
      | some vis =>
        rw [hcy] at hpc
        simp only at hpc
        set core : MetaCore :=
          ⟨mkName obj.typeOf, obj.typeOf, valueCanSet obj, obj.typeOf.pkgPath != "", path⟩
          with hcore
        set st1 : WState := { st with visited := vis, flat := st.flat ++ [(path, core)] }
          with hst1
        have hbuilt : BuiltEntry (path, core) := by
          refine ⟨rfl, rfl, rfl, rfl⟩
        have hstep : ∀ x : String × MetaCore, x ∈ st1.flat → x ∈ st.flat ∨ BuiltEntry x := by
          intro x hx
          rcases List.mem_append.1 hx with h' | h'
          · exact Or.inl h'
          · simp at h'
            right
            rw [h']
            exact hbuilt
        cases hrun : runFuncs s.userFuncs obj (snapOf core) st1 with
        | mk st2 e? =>
          rw [hrun] at hpc
          have hobs := runFuncs_obs s.userFuncs obj (snapOf core) st1
          rw [hrun] at hobs
          have hstep2 : ∀ x : String × MetaCore, x ∈ st2.flat → x ∈ st.flat ∨ BuiltEntry x := by
            intro x hx
            apply hstep
            rw [← hobs.2.1]
            exact hx
          cases e? with
          | some e => exact hstep2 pc hpc
          | none =>
            simp only at hpc
            cases hcw : walkChildren (fun v p stc => walkF s h fuel v (depth + 1) p stc)
                (childrenOf s h obj path) st2 with
            | mk st3 cr =>
              rw [hcw] at hpc
              have hall := walkChildren_flat_built
                (fun v p stc => walkF s h fuel v (depth + 1) p stc)
                (fun v p stc x hx => ih v (depth + 1) p stc x hx)
                (childrenOf s h obj path) st2 pc
              cases cr with
              | ok kids =>
                simp only at hpc
                rcases hall (by rw [hcw]; exact hpc) with h' | h'
                · exact hstep2 pc h'
                · exact Or.inr h'
              | err e =>
                simp only at hpc
                rcases hall (by rw [hcw]; exact hpc) with h' | h'
                · exact hstep2 pc h'
                · exact Or.inr h'
              | panicked =>
                simp only at hpc
                rcases hall (by rw [hcw]; exact hpc) with h' | h'
                · exact hstep2 pc h'
                · exact Or.inr h'
    · rw [walkF] at hpc
      simp only [hv, Bool.not_false, if_true] at hpc
      exact Or.inl hpc

end gowalker

/-! ### The walk output (visited set, flat map, result) does not depend on
the registered callbacks, as long as none of them reports an error. -/

namespace gowalker

theorem runFuncs_noerr : ∀ (fns : List UserFunc), NeverErr fns →
    ∀ (v : Val) (m : MetaSnap) (st : WState), (runFuncs fns v m st).2 = none := by
  intro fns hne
  induction fns with
  | nil => intro v m st; rfl
  | cons fn rest ih =>
    intro v m st
    have hr : fn v m = none := hne fn (by simp) v m
    simp only [runFuncs, hr]
    exact ih (fun g hg v' m' => hne g (by simp [hg]) v' m') v m _

/-- `childrenOf` reads only the tag filter and the two member-skip flags. -/
theorem childrenOf_congr (s₁ s₂ : walkSettings) (h : Heap) (v : Val) (p : String)
    (ht : s₁.tagFilter = s₂.tagFilter) (hip : s₁.includePrivate = s₂.includePrivate)
    (hos : s₁.onlySettable = s₂.onlySettable) :
    childrenOf s₁ h v p = childrenOf s₂ h v p := by
  unfold childrenOf
  rw [ht, hip, hos]

theorem walkChildren_rel (rec₁ rec₂ : Val → String → WState → WState × WRes)
    (hrec : ∀ v p st₁ st₂, st₁.visited = st₂.visited → st₁.flat = st₂.flat →
      (rec₁ v p st₁).2 = (rec₂ v p st₂).2 ∧
      (rec₁ v p st₁).1.visited = (rec₂ v p st₂).1.visited ∧
      (rec₁ v p st₁).1.flat = (rec₂ v p st₂).1.flat) :
    ∀ (cs : List Child) (st₁ st₂ : WState), st₁.visited = st₂.visited →
      st₁.flat = st₂.flat →
      (walkChildren rec₁ cs st₁).2 = (walkChildren rec₂ cs st₂).2 ∧
      (walkChildren rec₁ cs st₁).1.visited = (walkChildren rec₂ cs st₂).1.visited ∧
      (walkChildren rec₁ cs st₁).1.flat = (walkChildren rec₂ cs st₂).1.flat := by
  intro cs
  induction cs with
  | nil => intro st₁ st₂ hv hf; exact ⟨rfl, hv, hf⟩
  | cons c rest ih =>
    intro st₁ st₂ hv hf
    cases c with
    | panicAt => exact ⟨rfl, hv, hf⟩
    | visit p v =>
      have hstep := hrec v p st₁ st₂ hv hf
      cases h₁ : rec₁ v p st₁ with
      | mk st₁' r₁ =>
      cases h₂ : rec₂ v p st₂ with
      | mk st₂' r₂ =>
      rw [h₁, h₂] at hstep
      obtain ⟨hr, hv', hf'⟩ := hstep
      simp only at hr hv' hf'
      subst hr
      cases r₁ with
      | ok m? =>
        have hrest := ih st₁' st₂' hv' hf'
        cases hc₁ : walkChildren rec₁ rest st₁' with
        | mk st₁'' cr₁ =>
        cases hc₂ : walkChildren rec₂ rest st₂' with
        | mk st₂'' cr₂ =>
        rw [hc₁, hc₂] at hrest
        obtain ⟨hcr, hv'', hf''⟩ := hrest
        simp only at hcr hv'' hf''
        subst hcr
        simp only [walkChildren, h₁, h₂, hc₁, hc₂]
        cases cr₁ with
        | ok ms => exact ⟨rfl, hv'', hf''⟩
        | err e => exact ⟨rfl, hv'', hf''⟩
        | panicked => exact ⟨rfl, hv'', hf''⟩
      | err e =>
        simp only [walkChildren, h₁, h₂]
        exact ⟨trivial, hv', hf'⟩
      | panicked =>
        simp only [walkChildren, h₁, h₂]
        exact ⟨trivial, hv', hf'⟩

theorem walkF_funcs_rel (s : walkSettings) (f₁ f₂ : List UserFunc) (h : Heap)
    (hne₁ : NeverErr f₁) (hne₂ : NeverErr f₂) :
    ∀ (fuel : Nat) (obj : Val) (depth : Nat) (path : String) (st₁ st₂ : WState),
      st₁.visited = st₂.visited → st₁.flat = st₂.flat →
      (walkF { s with userFuncs := f₁ } h fuel obj depth path st₁).2 =
        (walkF { s with userFuncs := f₂ } h fuel obj depth path st₂).2 ∧
      (walkF { s with userFuncs := f₁ } h fuel obj depth path st₁).1.visited =
        (walkF { s with userFuncs := f₂ } h fuel obj depth path st₂).1.visited ∧
      (walkF { s with userFuncs := f₁ } h fuel obj depth path st₁).1.flat =
        (walkF { s with userFuncs := f₂ } h fuel obj depth path st₂).1.flat := by
  intro fuel
  induction fuel with
  | zero => intro obj depth path st₁ st₂ hv hf; exact ⟨rfl, hv, hf⟩
  | succ fuel ih =>
    intro obj depth path st₁ st₂ hv hf
    cases hw₁ : walkF { s with userFuncs := f₁ } h (fuel + 1) obj depth path st₁ with
    | mk o₁ r₁ =>
    cases hw₂ : walkF { s with userFuncs := f₂ } h (fuel + 1) obj depth path st₂ with
    | mk o₂ r₂ =>
    simp only
    rw [walkF] at hw₁ hw₂
    by_cases hval : obj.isValid
    · simp only [hval, Bool.not_true, Bool.false_eq_true, if_false] at hw₁ hw₂
      cases hcy : cycleCheck obj st₂.visited with
      | none =>
        have hcy₁ : cycleCheck obj st₁.visited = none := by rw [hv, hcy]
        rw [hcy₁] at hw₁
        rw [hcy] at hw₂
        simp only at hw₁ hw₂
        injection hw₁ with ha₁ hb₁
        injection hw₂ with ha₂ hb₂
        subst ha₁; subst hb₁; subst ha₂; subst hb₂
        exact ⟨rfl, hv, hf⟩
      | some vis =>
        have hcy₁ : cycleCheck obj st₁.visited = some vis := by rw [hv, hcy]
        rw [hcy₁] at hw₁
        rw [hcy] at hw₂
        simp only at hw₁ hw₂
        set core : MetaCore :=
          ⟨mkName obj.typeOf, obj.typeOf, valueCanSet obj, obj.typeOf.pkgPath != "", path⟩
          with hcore
        set stA : WState := { st₁ with visited := vis, flat := st₁.flat ++ [(path, core)] }
          with hstA
        set stB : WState := { st₂ with visited := vis, flat := st₂.flat ++ [(path, core)] }
          with hstB
        have hAB1 : stA.visited = stB.visited := rfl
        have hAB2 : stA.flat = stB.flat := by
          show st₁.flat ++ [(path, core)] = st₂.flat ++ [(path, core)]
          rw [hf]
        have hnr₁ := runFuncs_noerr f₁ hne₁ obj (snapOf core) stA
        have hnr₂ := runFuncs_noerr f₂ hne₂ obj (snapOf core) stB
        have hob₁ := runFuncs_obs f₁ obj (snapOf core) stA
        have hob₂ := runFuncs_obs f₂ obj (snapOf core) stB
        cases hr₁ : runFuncs f₁ obj (snapOf core) stA with
        | mk stA' e₁ =>
        cases hr₂ : runFuncs f₂ obj (snapOf core) stB with
        | mk stB' e₂ =>
        rw [hr₁] at hw₁ hnr₁ hob₁
        rw [hr₂] at hw₂ hnr₂ hob₂
        simp only at hnr₁ hnr₂
        subst hnr₁; subst hnr₂
        simp only at hw₁ hw₂
        have hvA : stA'.visited = stB'.visited := by
          rw [hob₁.1, hob₂.1]
        have hfA : stA'.flat = stB'.flat := by
          rw [hob₁.2.1, hob₂.2.1, hAB2]
        have hcseq : childrenOf { s with userFuncs := f₁ } h obj path =
            childrenOf { s with userFuncs := f₂ } h obj path := by
          apply childrenOf_congr <;> rfl
        rw [hcseq] at hw₁
        have hch := walkChildren_rel
          (fun v p stc => walkF { s with userFuncs := f₁ } h fuel v (depth + 1) p stc)
          (fun v p stc => walkF { s with userFuncs := f₂ } h fuel v (depth + 1) p stc)
          (fun v p sA sB hva hfa => ih v (depth + 1) p sA sB hva hfa)
          (childrenOf { s with userFuncs := f₂ } h obj path) stA' stB' hvA hfA
        cases hc₁ : walkChildren
            (fun v p stc => walkF { s with userFuncs := f₁ } h fuel v (depth + 1) p stc)
            (childrenOf { s with userFuncs := f₂ } h obj path) stA' with
        | mk stC cr₁ =>
        cases hc₂ : walkChildren
            (fun v p stc => walkF { s with userFuncs := f₂ } h fuel v (depth + 1) p stc)
            (childrenOf { s with userFuncs := f₂ } h obj path) stB' with
        | mk stD cr₂ =>
        rw [hc₁] at hw₁ hch
        rw [hc₂] at hw₂ hch
        obtain ⟨hcr, hvC, hfC⟩ := hch
        simp only at hcr hvC hfC
        subst hcr
        cases cr₁ with
        | ok kids =>
          simp only at hw₁ hw₂
          injection hw₁ with ha₁ hb₁
          injection hw₂ with ha₂ hb₂
          subst ha₁; subst hb₁; subst ha₂; subst hb₂
          exact ⟨rfl, hvC, hfC⟩
        | err e =>
          simp only at hw₁ hw₂
          injection hw₁ with ha₁ hb₁
          injection hw₂ with ha₂ hb₂
          subst ha₁; subst hb₁; subst ha₂; subst hb₂
          exact ⟨rfl, hvC, hfC⟩
        | panicked =>
          simp only at hw₁ hw₂
          injection hw₁ with ha₁ hb₁
          injection hw₂ with ha₂ hb₂
          subst ha₁; subst hb₁; subst ha₂; subst hb₂
          exact ⟨rfl, hvC, hfC⟩
    · simp only [hval, Bool.not_false, if_true] at hw₁ hw₂
      injection hw₁ with ha₁ hb₁
      injection hw₂ with ha₂ hb₂
      subst ha₁; subst hb₁; subst ha₂; subst hb₂
      exact ⟨rfl, hv, hf⟩

end gowalker

/-! ### The current engine never consults the type filter or the meta
filter: the walk is invariant under changing them. -/

namespace gowalker

theorem walkF_filters_congr (s : walkSettings) (tf : Option TypeFilter)
    (mf : Option MetaFilter) (h : Heap) :
    ∀ (fuel : Nat) (obj : Val) (depth : Nat) (path : String) (st : WState),
      walkF { s with typeFilter := tf, metaFilter := mf } h fuel obj depth path st =
      walkF s h fuel obj depth path st := by
  intro fuel
  induction fuel with
  | zero => intro obj depth path st; rfl
  | succ fuel ih =>
    intro obj depth path st
    have hrec : (fun v p stc =>
        walkF { s with typeFilter := tf, metaFilter := mf } h fuel v (depth + 1) p stc) =
        (fun v p stc => walkF s h fuel v (depth + 1) p stc) := by
      funext v p stc
      exact ih v (depth + 1) p stc
    rw [walkF, walkF, hrec]
    exact rfl

end gowalker

/-! ### One-step facts about the legacy engine: type-filter prune,
meta-filter rejection, cache hit. -/

namespace legacy

/-- Legacy type-filter prune: a configured type filter rejecting the value's
type stops the visit before any node is built. -/
theorem walkF_typeFilter_prune (s : walkSettings) (h : Heap) (fn : UserFunc)
    (k : Nat) (obj : Val) (d : Nat) (p : String) (st : LState) (f : TypeFilter)
    (hval : obj.isValid = true) (hf : s.TypeFilter = some f)
    (hr : f obj.typeOf = false) :
    walkF s h fn (k + 1) obj d p st = (st, .ok none) := by
  rw [walkF]
  simp [hval, hf, hr]

/-- Legacy meta-filter rejection: after the guards pass and the node is
freshly built, a configured meta filter rejecting the metadata copy returns
no node; nothing is cached, no callback runs, the arena and trace are
untouched (only the cycle guard may have recorded a pointer identity). -/
theorem walkF_metaFilter_reject (s : walkSettings) (h : Heap) (fn : UserFunc)
    (k : Nat) (obj : Val) (d : Nat) (p : String) (st : LState) (vis : List Nat)
    (mf : MetaFilter)
    (hval : obj.isValid = true)
    (hTF : s.TypeFilter = none ∨ ∃ f, s.TypeFilter = some f ∧ f obj.typeOf = true)
    (hTag : s.TagFilter = none ∨ fieldByName obj p = none ∨
      ∃ fi tf, fieldByName obj p = some fi ∧ s.TagFilter = some tf ∧ tf fi.ftag = true)
    (hcy : lCycle obj st.visited = some vis)
    (hmiss : cacheGet st.cache p = none)
    (hmf : s.MetaFilter = some mf)
    (hrej : mf (snapOf ⟨mkName obj.typeOf, obj.typeOf, valueCanSet obj,
      obj.typeOf.pkgPath != "", p⟩) = false) :
    walkF s h fn (k + 1) obj d p st = ({ st with visited := vis }, .ok none) := by
  rw [walkF]
  rcases hTF with hTF | ⟨f, hTF, hfv⟩ <;>
    rcases hTag with hTag | hTag | ⟨fi, tf, hFB, hTag, htv⟩ <;>
    simp_all

/-- Legacy cache hit: after the guards pass, a path that already has a
cached node returns exactly that node (the identical arena index) — nothing
is rebuilt, nothing stored, no callback runs. -/
theorem walkF_cache_hit (s : walkSettings) (h : Heap) (fn : UserFunc)
    (k : Nat) (obj : Val) (d : Nat) (p : String) (st : LState) (vis : List Nat)
    (i : Nat)
    (hval : obj.isValid = true)
    (hTF : s.TypeFilter = none ∨ ∃ f, s.TypeFilter = some f ∧ f obj.typeOf = true)
    (hTag : s.TagFilter = none ∨ fieldByName obj p = none ∨
      ∃ fi tf, fieldByName obj p = some fi ∧ s.TagFilter = some tf ∧ tf fi.ftag = true)
    (hcy : lCycle obj st.visited = some vis)
    (hhit : cacheGet st.cache p = some i) :
    walkF s h fn (k + 1) obj d p st = ({ st with visited := vis }, .ok (some i)) := by
  rw [walkF]
  rcases hTF with hTF | ⟨f, hTF, hfv⟩ <;>
    rcases hTag with hTag | hTag | ⟨fi, tf, hFB, hTag, htv⟩ <;>
    simp_all

end legacy

/-! ### Path uniqueness machinery: the children of a good value append
pairwise-distinct unambiguous segments to the parent path. -/

theorem heapGet_good {h : Heap} (hh : GoodHeap h) (a : Nat) : GoodVal (heapGet h a) := by
  unfold heapGet
  cases hf : h.find? (fun e => e.1 == a) with
  | none => exact GoodVal.invalid
  | some e => exact hh e (List.mem_of_find?_eq_some hf)

theorem str_append_ne {p x : String} (hx : x.data ≠ []) : p ≠ p ++ x := by
  intro heq
  have hd : p.data = (p ++ x).data := congrArg String.data heq
  rw [String.data_append] at hd
  have hd2 : p.data ++ ([] : List Char) = p.data ++ x.data := by
    rw [List.append_nil]
    exact hd
  exact hx (List.append_cancel_left hd2).symm

theorem str_append_cancel {p a b : String} (h : p ++ a = p ++ b) : a = b := by
  apply String.ext
  have hd : p.data ++ a.data = p.data ++ b.data := by
    have : (p ++ a).data = (p ++ b).data := by rw [h]
    simpa using this
  exact List.append_cancel_left hd

theorem renderSegs_cons_ne_empty (s : Seg) (l : List Seg) :
    (renderSegs (s :: l)).data ≠ [] := by
  rw [renderSegs_data_cons]
  intro hcontra
  exact renderSeg_ne_nil s (List.append_eq_nil.1 hcontra).1

/-- Children of a struct: the surviving visits append field segments, a
sublist of the declared field names. -/
theorem strctChildren_visOK (s : gowalker.walkSettings) (p : String) :
    ∀ (fs : List (FieldInfo × Val)), (∀ fv ∈ fs, goodNameB fv.1.fname = true) →
      (∀ fv ∈ fs, GoodVal fv.2) →
      ∃ names : List String,
        VisOK p (fs.filterMap (fun fv =>
          if (match s.tagFilter with | some f => !f fv.1.ftag | none => false) then none
          else if !s.includePrivate && fv.1.fPkgPath != "" then none
          else if s.onlySettable && !valueCanSet fv.2 then none
          else if fv.1.fPkgPath != "" then some Child.panicAt
          else some (Child.visit (p ++ "." ++ fv.1.fname) fv.2)))
          (names.map Seg.fld) ∧
        names.Sublist (fs.map (fun fv => fv.1.fname)) := by
  intro fs
  induction fs with
  | nil => intro _ _; exact ⟨[], VisOK.nil, List.Sublist.refl _⟩
  | cons fv rest ih =>
    intro hn hg
    obtain ⟨names, hvis, hsub⟩ := ih (fun x hx => hn x (by simp [hx]))
      (fun x hx => hg x (by simp [hx]))
    rw [List.filterMap_cons]
    by_cases h1 : (match s.tagFilter with | some f => !f fv.1.ftag | none => false) = true
    · rw [if_pos h1]
      exact ⟨names, hvis, hsub.cons _⟩
    · rw [if_neg h1]
      by_cases h2 : (!s.includePrivate && fv.1.fPkgPath != "") = true
      · rw [if_pos h2]
        exact ⟨names, hvis, hsub.cons _⟩
      · rw [if_neg h2]
        by_cases h3 : (s.onlySettable && !valueCanSet fv.2) = true
        · rw [if_pos h3]
          exact ⟨names, hvis, hsub.cons _⟩
        · rw [if_neg h3]
          by_cases h4 : (fv.1.fPkgPath != "") = true
          · rw [if_pos h4]
            exact ⟨names, VisOK.panic _ _ hvis, hsub.cons _⟩
          · rw [if_neg h4]
            refine ⟨fv.1.fname :: names, ?_, hsub.cons₂ _⟩
            have hpath : p ++ "." ++ fv.1.fname = p ++ renderSeg (Seg.fld fv.1.fname) := by
              show p ++ "." ++ fv.1.fname = p ++ ("." ++ fv.1.fname)
              apply String.ext
              simp
            rw [List.map_cons, hpath]
            exact VisOK.vis _ _ _ _ (hn fv (by simp)) (hg fv (by simp)) hvis

/-- Children of a sequence: index segments from a `range'`. -/
theorem idxChildren_visOK (p : String) :
    ∀ (es : List Val) (i : Nat), (∀ v ∈ es, GoodVal v) →
      VisOK p (idxChildren p i es) ((List.range' i es.length).map Seg.idx) := by
  intro es
  induction es with
  | nil => intro i _; exact VisOK.nil
  | cons v rest ih =>
    intro i hg
    rw [idxChildren]
    have hpath : p ++ "[" ++ toString i ++ "]" = p ++ renderSeg (Seg.idx i) := by
      show p ++ "[" ++ toString i ++ "]" = p ++ ("[" ++ toString i ++ "]")
      apply String.ext
      simp
    rw [show (List.range' i (v :: rest).length).map Seg.idx
      = Seg.idx i :: (List.range' (i + 1) rest.length).map Seg.idx by
        rw [List.length_cons, List.range'_succ, List.map_cons]]
    rw [hpath]
    exact VisOK.vis _ _ _ _ trivial (hg v (by simp))
      (ih (i + 1) (fun x hx => hg x (by simp [hx])))

/-- Every good value's pending children carry pairwise distinct unambiguous
segments. -/
theorem childrenOf_visOK (s : gowalker.walkSettings) (h : Heap) (p : String)
    {obj : Val} (hg : GoodVal obj) (hh : GoodHeap h) :
    ∃ segs, VisOK p (gowalker.childrenOf s h obj p) segs ∧ segs.Nodup := by
  cases hg with
  | invalid =>
    simp only [gowalker.childrenOf]
    exact ⟨[], VisOK.nil, List.nodup_nil⟩
  | base t =>
    simp only [gowalker.childrenOf]
    exact ⟨[], VisOK.nil, List.nodup_nil⟩
  | ptr t a =>
    simp only [gowalker.childrenOf]
    by_cases ha : a = 0
    · simp only [ha, ne_eq, not_true_eq_false, if_false]
      exact ⟨[], VisOK.nil, List.nodup_nil⟩
    · simp only [ne_eq, ha, not_false_eq_true, if_true]
      refine ⟨[Seg.deref], ?_, by simp⟩
      have hpath : p ++ ".*" = p ++ renderSeg Seg.deref := rfl
      rw [hpath]
      exact VisOK.vis _ _ _ _ trivial (heapGet_good hh a) VisOK.nil
  | strct t fs hn hg' hnd =>
    simp only [gowalker.childrenOf]
    obtain ⟨names, hvis, hsub⟩ := strctChildren_visOK s p fs hn hg'
    refine ⟨names.map Seg.fld, hvis, ?_⟩
    have : names.Nodup := hsub.nodup hnd
    exact this.map (fun a b hab => by injection hab)
  | slice t es hg' =>
    simp only [gowalker.childrenOf]
    refine ⟨(List.range' 0 es.length).map Seg.idx, idxChildren_visOK p es 0 hg', ?_⟩
    exact (List.nodup_range' _ _).map (fun a b hab => by injection hab)
  | arr t es hg' =>
    simp only [gowalker.childrenOf]
    refine ⟨(List.range' 0 es.length).map Seg.idx, idxChildren_visOK p es 0 hg', ?_⟩
    exact (List.nodup_range' _ _).map (fun a b hab => by injection hab)

/-! ### Path uniqueness: over map-free inputs with Go-identifier field
names, every flat-map store during one walk has a distinct path. -/

theorem path_seg_assoc (p : String) (seg : Seg) (l : List Seg) :
    (p ++ renderSeg seg) ++ renderSegs l = p ++ renderSegs (seg :: l) := by
  show (p ++ renderSeg seg) ++ renderSegs l = p ++ (renderSeg seg ++ renderSegs l)
  apply String.ext
  simp

theorem renderSegs_empty_right (p : String) : p = p ++ renderSegs [] := by
  show p = p ++ ""
  rw [String.append_empty]

namespace gowalker

theorem walkChildren_paths (rec : Val → String → WState → WState × WRes)
    (hrec : ∀ v q stc, GoodVal v → ∃ new,
      (rec v q stc).1.flat = stc.flat ++ new ∧
      (∀ x ∈ new, ∃ l, GoodSegs l ∧ x.1 = q ++ renderSegs l) ∧
      (new.map (fun e => e.1)).Nodup) :
    ∀ (cs : List Child) (segs : List Seg) (p : String), VisOK p cs segs →
      segs.Nodup → ∀ (st : WState),
      ∃ new, (walkChildren rec cs st).1.flat = st.flat ++ new ∧
        (∀ x ∈ new, ∃ seg l, seg ∈ segs ∧ GoodSeg seg ∧ GoodSegs l ∧
          x.1 = p ++ renderSegs (seg :: l)) ∧
        (new.map (fun e => e.1)).Nodup := by
  intro cs segs p hvis
  induction hvis with
  | nil =>
    intro _ st
    exact ⟨[], by simp [walkChildren], by simp, by simp⟩
  | panic rest segs hrest ih =>
    intro _ st
    exact ⟨[], by simp [walkChildren], by simp, by simp⟩
  | vis seg v rest segs hseg hgv hrest ih =>
    intro hnd st
    obtain ⟨new₁, hflat₁, hmem₁, hnd₁⟩ := hrec v (p ++ renderSeg seg) st hgv
    cases hr : rec v (p ++ renderSeg seg) st with
    | mk st' r =>
    rw [hr] at hflat₁
    simp only at hflat₁
    have hmem₁' : ∀ x ∈ new₁, ∃ l, GoodSegs (seg :: l) ∧ x.1 = p ++ renderSegs (seg :: l) := by
      intro x hx
      obtain ⟨l, hgl, hql⟩ := hmem₁ x hx
      refine ⟨l, ?_, by rw [hql, path_seg_assoc]⟩
      intro z hz
      rcases List.mem_cons.1 hz with h | h
      · rw [h]; exact hseg
      · exact hgl z h
    cases r with
    | ok m? =>
      obtain ⟨new₂, hflat₂, hmem₂, hnd₂⟩ := ih (List.Nodup.of_cons hnd) st'
      cases hc : walkChildren rec rest st' with
      | mk st'' cr =>
      rw [hc] at hflat₂
      simp only at hflat₂
      have hdisj : ∀ q₁ ∈ new₁.map (fun e => e.1), ∀ q₂ ∈ new₂.map (fun e => e.1), q₁ ≠ q₂ := by
        intro q₁ hq₁ q₂ hq₂ heq
        obtain ⟨x₁, hx₁, hx₁'⟩ := List.mem_map.1 hq₁
        obtain ⟨x₂, hx₂, hx₂'⟩ := List.mem_map.1 hq₂
        obtain ⟨l₁, hgl₁, he₁⟩ := hmem₁' x₁ hx₁
        obtain ⟨seg₂, l₂, hs₂, hgs₂, hgl₂, he₂⟩ := hmem₂ x₂ hx₂
        rw [← hx₁', ← hx₂'] at heq
        rw [he₁, he₂] at heq
        have hsegs := renderSegs_inj (seg :: l₁) (seg₂ :: l₂) hgl₁
          (by
            intro z hz
            rcases List.mem_cons.1 hz with h | h
            · rw [h]; exact hgs₂
            · exact hgl₂ z h)
          (str_append_cancel heq)
        have : seg = seg₂ := by injection hsegs
        rw [this] at hnd
        exact (List.nodup_cons.1 hnd).1 hs₂
      refine ⟨new₁ ++ new₂, ?_, ?_, ?_⟩
      · have hfl : st''.flat = st.flat ++ new₁ ++ new₂ := by
          rw [hflat₂, hflat₁]
        simp only [walkChildren, hr, hc]
        cases cr with
        | ok ms => simpa [List.append_assoc] using hfl
        | err e => simpa [List.append_assoc] using hfl
        | panicked => simpa [List.append_assoc] using hfl
      · intro x hx
        rcases List.mem_append.1 hx with h | h
        · obtain ⟨l, hgl, hql⟩ := hmem₁' x h
          exact ⟨seg, l, by simp, hseg, fun z hz => hgl z (by simp [hz]), hql⟩
        · obtain ⟨seg₂, l₂, hs₂, hgs₂, hgl₂, he₂⟩ := hmem₂ x h
          exact ⟨seg₂, l₂, by simp [hs₂], hgs₂, hgl₂, he₂⟩
      · rw [List.map_append]
        refine List.Nodup.append hnd₁ hnd₂ ?_
        intro q hq₁ hq₂
        exact hdisj q hq₁ q hq₂ rfl
    | err e =>
      refine ⟨new₁, ?_, ?_, hnd₁⟩
      · simp only [walkChildren, hr]
        exact hflat₁
      · intro x hx
        obtain ⟨l, hgl, hql⟩ := hmem₁' x hx
        exact ⟨seg, l, by simp, hseg, fun z hz => hgl z (by simp [hz]), hql⟩
    | panicked =>
      refine ⟨new₁, ?_, ?_, hnd₁⟩
      · simp only [walkChildren, hr]
        exact hflat₁
      · intro x hx
        obtain ⟨l, hgl, hql⟩ := hmem₁' x hx
        exact ⟨seg, l, by simp, hseg, fun z hz => hgl z (by simp [hz]), hql⟩

end gowalker

namespace gowalker

theorem walkF_paths (s : walkSettings) (h : Heap) (hh : GoodHeap h) :
    ∀ (fuel : Nat) (obj : Val) (depth : Nat) (path : String) (st : WState),
      GoodVal obj →
      ∃ new, (walkF s h fuel obj depth path st).1.flat = st.flat ++ new ∧
        (∀ x ∈ new, ∃ l, GoodSegs l ∧ x.1 = path ++ renderSegs l) ∧
        (new.map (fun e => e.1)).Nodup := by
  intro fuel
  induction fuel with
  | zero =>
    intro obj depth path st _
    exact ⟨[], by simp [walkF], by simp, by simp⟩
  | succ fuel ih =>
    intro obj depth path st hg
    by_cases hval : obj.isValid
    · cases hcy : cycleCheck obj st.visited with
      | none =>
        refine ⟨[], ?_, by simp, by simp⟩
        rw [walkF]
        simp [hval, hcy]
      | some vis =>
        set core : MetaCore :=
          ⟨mkName obj.typeOf, obj.typeOf, valueCanSet obj, obj.typeOf.pkgPath != "", path⟩
          with hcore
        set st1 : WState := { st with visited := vis, flat := st.flat ++ [(path, core)] }
          with hst1
        have hob := runFuncs_obs s.userFuncs obj (snapOf core) st1
        cases hrun : runFuncs s.userFuncs obj (snapOf core) st1 with
        | mk st2 e? =>
        rw [hrun] at hob
        simp only at hob
        have hfl2 : st2.flat = st.flat ++ [(path, core)] := hob.2.1
        have hmemhead : ∃ l, GoodSegs l ∧ (path, core).1 = path ++ renderSegs l :=
          ⟨[], by intro z hz; simp at hz, renderSegs_empty_right path⟩
        cases e? with
        | some e =>
          refine ⟨[(path, core)], ?_, ?_, by simp⟩
          · rw [walkF]
            simp only [hval, Bool.not_true, Bool.false_eq_true, if_false, hcy, hrun]
            exact hfl2
          · intro x hx
            simp at hx
            rw [hx]
            exact hmemhead
        | none =>
          obtain ⟨segs, hvis, hndsegs⟩ := childrenOf_visOK s h path hg hh
          obtain ⟨new₂, hflat₂, hmem₂, hnd₂⟩ := walkChildren_paths
            (fun v p stc => walkF s h fuel v (depth + 1) p stc)
            (fun v q stc hgv => ih v (depth + 1) q stc hgv)
            (childrenOf s h obj path) segs path hvis hndsegs st2
          cases hcw : walkChildren (fun v p stc => walkF s h fuel v (depth + 1) p stc)
              (childrenOf s h obj path) st2 with
          | mk st3 cr =>
          rw [hcw] at hflat₂
          simp only at hflat₂
          have hmem' : ∀ x, x ∈ ((path, core) :: new₂) →
              ∃ l, GoodSegs l ∧ x.1 = path ++ renderSegs l := by
            intro x hx
            rcases List.mem_cons.1 hx with hx | hx
            · rw [hx]; exact hmemhead
            · obtain ⟨seg, l, _, hgs, hgl, he⟩ := hmem₂ x hx
              refine ⟨seg :: l, ?_, he⟩
              intro z hz
              rcases List.mem_cons.1 hz with h' | h'
              · rw [h']; exact hgs
              · exact hgl z h'
          have hnd' : (((path, core) :: new₂).map (fun e => e.1)).Nodup := by
            rw [List.map_cons]
            rw [List.nodup_cons]
            constructor
            · intro hmem
              obtain ⟨x, hx, hx'⟩ := List.mem_map.1 hmem
              obtain ⟨seg, l, _, _, hgl, he⟩ := hmem₂ x hx
              have : (path, core).1 ≠ x.1 := by
                rw [he]
                exact str_append_ne (renderSegs_cons_ne_empty seg l)
              exact this hx'.symm
            · exact hnd₂
          have hfl3 : st3.flat = st.flat ++ ((path, core) :: new₂) := by
            rw [hflat₂, hfl2]
            simp
          refine ⟨(path, core) :: new₂, ?_, hmem', hnd'⟩
          rw [walkF]
          simp only [hval, Bool.not_true, Bool.false_eq_true, if_false, hcy, hrun, hcw]
          cases cr with
          | ok kids => exact hfl3
          | err e => exact hfl3
          | panicked => exact hfl3
    · refine ⟨[], ?_, by simp, by simp⟩
      rw [walkF]
      simp [hval]

end gowalker

/-! ### Small auxiliary facts: the flat map is append-only, and the final
Walk state is the root call state. -/

namespace gowalker

theorem WalkSt_fst (h : Heap) (obj : Val) (opts : List Opt) :
    (WalkSt h obj opts).1 = initState ∨
    (WalkSt h obj opts).1 =
      (walkRecursive (opts.foldl (fun acc o => o acc) defaultSettings) h obj 0
        (mkName obj.typeOf) initState).1 := by
  unfold WalkSt
  cases htop : obj.typeOfTop with
  | none => exact Or.inl rfl
  | some t =>
    right
    have ht : t = obj.typeOf := by
      cases obj <;> simp [Val.typeOfTop] at htop <;> rw [← htop]
    subst ht
    simp only
    cases hw : walkRecursive (opts.foldl (fun acc o => o acc) defaultSettings) h obj 0
        (mkName obj.typeOf) initState with
    | mk st r =>
      cases r <;> rfl

theorem walkChildren_flat_mono (rec : Val → String → WState → WState × WRes)
    (hrec : ∀ v p st, ∃ new, (rec v p st).1.flat = st.flat ++ new) :
    ∀ (cs : List Child) (st : WState),
      ∃ new, (walkChildren rec cs st).1.flat = st.flat ++ new := by
  intro cs
  induction cs with
  | nil => intro st; exact ⟨[], by simp [walkChildren]⟩
  | cons c rest ih =>
    intro st
    cases c with
    | panicAt => exact ⟨[], by simp [walkChildren]⟩
    | visit p v =>
      obtain ⟨new₁, h₁⟩ := hrec v p st
      cases hr : rec v p st with
      | mk st' r =>
      rw [hr] at h₁
      simp only at h₁
      cases r with
      | ok m? =>
        obtain ⟨new₂, h₂⟩ := ih st'
        cases hc : walkChildren rec rest st' with
        | mk st'' cr =>
        rw [hc] at h₂
        simp only at h₂
        refine ⟨new₁ ++ new₂, ?_⟩
        simp only [walkChildren, hr, hc]
        cases cr with
        | ok ms => rw [h₂, h₁]; simp
        | err e => rw [h₂, h₁]; simp
        | panicked => rw [h₂, h₁]; simp
      | err e =>
        refine ⟨new₁, ?_⟩
        simp only [walkChildren, hr]
        exact h₁
      | panicked =>
        refine ⟨new₁, ?_⟩
        simp only [walkChildren, hr]
        exact h₁

theorem walkF_flat_mono (s : walkSettings) (h : Heap) :
    ∀ (fuel : Nat) (obj : Val) (depth : Nat) (path : String) (st : WState),
      ∃ new, (walkF s h fuel obj depth path st).1.flat = st.flat ++ new := by
  intro fuel
  induction fuel with
  | zero => intro obj depth path st; exact ⟨[], by simp [walkF]⟩
  | succ fuel ih =>
    intro obj depth path st
    by_cases hval : obj.isValid
    · cases hcy : cycleCheck obj st.visited with
      | none =>
        refine ⟨[], ?_⟩
        rw [walkF]
        simp [hval, hcy]
      | some vis =>
        set core : MetaCore :=
          ⟨mkName obj.typeOf, obj.typeOf, valueCanSet obj, obj.typeOf.pkgPath != "", path⟩
          with hcore
        set st1 : WState := { st with visited := vis, flat := st.flat ++ [(path, core)] }
          with hst1
        have hob := runFuncs_obs s.userFuncs obj (snapOf core) st1
        cases hrun : runFuncs s.userFuncs obj (snapOf core) st1 with
        | mk st2 e? =>
        rw [hrun] at hob
        simp only at hob
        have hfl2 : st2.flat = st.flat ++ [(path, core)] := hob.2.1
        cases e? with
        | some e =>
          refine ⟨[(path, core)], ?_⟩
          rw [walkF]
          simp only [hval, Bool.not_true, Bool.false_eq_true, if_false, hcy, hrun]
          exact hfl2
        | none =>
          obtain ⟨new₂, h₂⟩ := walkChildren_flat_mono
            (fun v p stc => walkF s h fuel v (depth + 1) p stc)
            (fun v p stc => ih v (depth + 1) p stc)
            (childrenOf s h obj path) st2
          cases hcw : walkChildren (fun v p stc => walkF s h fuel v (depth + 1) p stc)
              (childrenOf s h obj path) st2 with
          | mk st3 cr =>
          rw [hcw] at h₂
          simp only at h₂
          refine ⟨(path, core) :: new₂, ?_⟩
          rw [walkF]
          simp only [hval, Bool.not_true, Bool.false_eq_true, if_false, hcy, hrun, hcw]
          cases cr with
          | ok kids => rw [h₂, hfl2]; simp
          | err e => rw [h₂, hfl2]; simp
          | panicked => rw [h₂, hfl2]; simp
    · refine ⟨[], ?_⟩
      rw [walkF]
      simp [hval]

end gowalker

namespace legacy

theorem fuelFor_pos {s : walkSettings} {d : Nat} (hd : (d : Int) ≤ s.MaxDepth) :
    fuelFor s d = (fuelFor s d - 1) + 1 := by
  unfold fuelFor
  omega

end legacy

/-! ## Claim theorems -/

/-- Claim C1 (confirmed): if some callback invocation returns an error
during the walk, `Walk` aborts immediately — the trace ends at the erroring
invocation (no further node is visited), the exact error value is returned
unchanged, and the returned root node and flat map are both nil. -/
theorem claim_C1_error_abort (h : Heap) (obj : Val) (opts : List gowalker.Opt)
    (root : Option MetaNode) (flat : Option (List (String × MetaCore))) (e : GoErr)
    (hret : gowalker.Walk h obj opts = .ret root flat (some e)) :
    root = none ∧ flat = none ∧
    ∃ t ev, (gowalker.WalkSt h obj opts).1.trace = t ++ [ev] ∧
      (∀ x ∈ t, x.result = none) ∧ ev.result = some e := by
  unfold gowalker.Walk at hret
  unfold gowalker.WalkSt at hret ⊢
  cases htop : obj.typeOfTop with
  | none =>
    rw [htop] at hret
    simp at hret
  | some t =>
    rw [htop] at hret
    simp only at hret ⊢
    cases hw : gowalker.walkRecursive (opts.foldl (fun acc o => o acc)
        gowalker.defaultSettings) h obj 0 (mkName t) gowalker.initState with
    | mk st r =>
      rw [hw] at hret
      have htr := gowalker.walkF_trace (opts.foldl (fun acc o => o acc)
        gowalker.defaultSettings) h
        (gowalker.fuelFor (opts.foldl (fun acc o => o acc) gowalker.defaultSettings) 0)
        obj 0 (mkName t) gowalker.initState
      rw [show gowalker.walkF (opts.foldl (fun acc o => o acc) gowalker.defaultSettings) h
        (gowalker.fuelFor (opts.foldl (fun acc o => o acc) gowalker.defaultSettings) 0)
        obj 0 (mkName t) gowalker.initState
        = gowalker.walkRecursive (opts.foldl (fun acc o => o acc) gowalker.defaultSettings)
          h obj 0 (mkName t) gowalker.initState from rfl, hw] at htr
      cases r with
      | ok m => simp at hret
      | panicked => simp at hret
      | err e' =>
        simp only at hret ⊢
        injection hret with h1 h2 h3
        injection h3 with h4
        refine ⟨h1.symm, h2.symm, ?_⟩
        obtain ⟨tt, ev, he, hn, hev⟩ := htr
        refine ⟨tt, ev, ?_, hn, by rw [hev, h4]⟩
        simpa using he

/-- Witness for C1: walking `exTwoField` with a callback failing at
`T.Field2` with error 7 returns nil root, nil flat map and exactly that
error, the erroring invocation being the last trace event. -/
theorem claim_C1_witness :
    (none : Option MetaNode) = none ∧
    (none : Option (List (String × MetaCore))) = none ∧
    ∃ t ev, (gowalker.WalkSt [] exTwoField [gowalker.WithUserFunc exErrCb]).1.trace =
      t ++ [ev] ∧ (∀ x ∈ t, x.result = none) ∧ ev.result = some 7 :=
  claim_C1_error_abort [] exTwoField [gowalker.WithUserFunc exErrCb] none none 7 rfl

/-- Claim C2 (confirmed): the cycle guard records a pointer identity before
descending, so a call on an already-visited non-nil pointer identity prunes
without visiting anything (first conjunct); on the concrete
self-referential graph `exCycleHeap`, the walk terminates (the model is a
total function) and the cyclic ancestor's path receives exactly one
callback invocation (second conjunct). -/
theorem claim_C2_cycle_once :
    (∀ (s : gowalker.walkSettings) (h : Heap) (t : GoType) (a : Nat) (d : Nat)
        (p : String) (st : gowalker.WState), a ≠ 0 → st.visited.contains a = true →
        gowalker.walkRecursive s h (.ptr t a) d p st = (st, .ok none)) ∧
    (gowalker.tracePaths
      (gowalker.WalkSt exCycleHeap exCycleRoot [gowalker.WithUserFunc exOkCb]).1).count
      "*pkg.C" = 1 := by
  constructor
  · intro s h t a d p st ha hv
    unfold gowalker.walkRecursive
    cases hf : gowalker.fuelFor s d with
    | zero => rfl
    | succ n =>
      have hm : a ∈ st.visited := by simpa using hv
      simp only [gowalker.walkF]
      simp [Val.isValid, gowalker.cycleCheck, ha, hm]
  · decide

/-- Witness for C2: a pointer to address 1 with 1 already in the visited
set prunes, leaving the state untouched. -/
theorem claim_C2_witness :
    gowalker.walkRecursive gowalker.defaultSettings [] (.ptr exPC 1) 0 "p"
      ⟨[1], [], []⟩ = (⟨[1], [], []⟩, .ok none) :=
  claim_C2_cycle_once.1 gowalker.defaultSettings [] exPC 1 0 "p" ⟨[1], [], []⟩
    (by decide) (by decide)

/-- Claim C3 (confirmed): a call whose depth exceeds the configured maximum
returns no node and leaves the state untouched (first conjunct); walking
the three-level `exRoot3` with `MaxDepth(1)` visits exactly the root and
its immediate member — the grandchild path `R.Mid.Inner` is never visited,
receives no callback, and does not appear in the flat map. -/
theorem claim_C3_depth_prune :
    (∀ (s : gowalker.walkSettings) (h : Heap) (obj : Val) (d : Nat) (p : String)
        (st : gowalker.WState), s.maxDepth < (d : Int) →
        gowalker.walkRecursive s h obj d p st = (st, .ok none)) ∧
    gowalker.flatPaths (gowalker.WalkSt [] exRoot3
      [gowalker.MaxDepth 1, gowalker.WithUserFunc exOkCb]).1 = ["R", "R.Mid"] ∧
    gowalker.tracePaths (gowalker.WalkSt [] exRoot3
      [gowalker.MaxDepth 1, gowalker.WithUserFunc exOkCb]).1 = ["R", "R.Mid"] ∧
    ¬ ("R.Mid.Inner" ∈ gowalker.flatPaths (gowalker.WalkSt [] exRoot3
      [gowalker.MaxDepth 1, gowalker.WithUserFunc exOkCb]).1) := by
  refine ⟨?_, by decide, by decide, by decide⟩
  intro s h obj d p st hd
  unfold gowalker.walkRecursive
  have hz : gowalker.fuelFor s d = 0 := by
    unfold gowalker.fuelFor
    omega
  rw [hz]
  rfl

/-- Witness for C3: at depth 2 with maximum depth 1, the inner struct is
pruned with no effect on the state. -/
theorem claim_C3_witness :
    gowalker.walkRecursive { gowalker.defaultSettings with maxDepth := 1 } []
      exInner 2 "q" ⟨[], [], []⟩ = (⟨[], [], []⟩, .ok none) :=
  claim_C3_depth_prune.1 { gowalker.defaultSettings with maxDepth := 1 } []
    exInner 2 "q" ⟨[], [], []⟩ (by decide)

/-- Counterexample to C4: with `WithTypeFilter (TypeIsOneOf [exInt])`, the
string member `T.Field2` is still visited — its path receives a callback
and appears in the flat map, contradicting the claim that the visited set
contains only the integer member's path. -/
theorem claim_C4_counterexample :
    "T.Field2" ∈ gowalker.tracePaths (gowalker.WalkSt [] exTwoField
      [gowalker.WithTypeFilter (gowalker.TypeIsOneOf [exInt]),
       gowalker.WithUserFunc exOkCb]).1 ∧
    "T.Field2" ∈ gowalker.flatPaths (gowalker.WalkSt [] exTwoField
      [gowalker.WithTypeFilter (gowalker.TypeIsOneOf [exInt]),
       gowalker.WithUserFunc exOkCb]).1 := by
  constructor <;> decide

/-- Claim C4 as amended: in walker.go the configured type filter is stored
but never consulted — the walk is identical for any two type-filter
settings (first conjunct).  In the legacy engine the type filter is indeed
checked before node construction, but there it gates the node itself: a
value whose type the filter rejects is pruned entirely, including the root
(second conjunct), so neither engine produces the visited set the claim
describes. -/
theorem claim_C4_type_filter :
    (∀ (s : gowalker.walkSettings) (f : gowalker.TypeFilter) (h : Heap) (obj : Val)
        (d : Nat) (p : String) (st : gowalker.WState),
        gowalker.walkRecursive { s with typeFilter := some f } h obj d p st =
        gowalker.walkRecursive { s with typeFilter := none } h obj d p st) ∧
    (∀ (s : legacy.walkSettings) (h : Heap) (fn : legacy.UserFunc) (obj : Val)
        (d : Nat) (p : String) (st : legacy.LState) (f : legacy.TypeFilter),
        (d : Int) ≤ s.MaxDepth → obj.isValid = true → s.TypeFilter = some f →
        f obj.typeOf = false →
        legacy.walkRecursive s h obj fn d p st = (st, .ok none)) := by
  constructor
  · intro s f h obj d p st
    unfold gowalker.walkRecursive
    exact (gowalker.walkF_filters_congr s (some f) s.metaFilter h _ obj d p st).trans
      (gowalker.walkF_filters_congr s none s.metaFilter h _ obj d p st).symm
  · intro s h fn obj d p st f hd hval hf hr
    rw [legacy.walkRecursive, legacy.fuelFor_pos hd]
    exact legacy.walkF_typeFilter_prune s h fn _ obj d p st f hval hf hr

/-- Witness for C4: the legacy engine with `TypeIsOneOf`-style filter for
`int` rejects the struct root itself, visiting nothing. -/
theorem claim_C4_witness :
    legacy.walkRecursive { legacy.defaultSettings with
        TypeFilter := some (fun t => [exInt].contains t) } [] exTwoField
      (fun _ _ => none) 0 "T" legacy.initState = (legacy.initState, .ok none) :=
  claim_C4_type_filter.2 { legacy.defaultSettings with
      TypeFilter := some (fun t => [exInt].contains t) } [] (fun _ _ => none)
    exTwoField 0 "T" legacy.initState (fun t => [exInt].contains t)
    (by decide) (by decide) rfl (by decide)

/-- Counterexample to C5: with `WithMetaFilter` rejecting exactly the node
at `T.Field2`, that node is still visited and recorded by walker.go — the
filter is never evaluated. -/
theorem claim_C5_counterexample :
    "T.Field2" ∈ gowalker.tracePaths (gowalker.WalkSt [] exTwoField
      [gowalker.WithMetaFilter exRejectF2, gowalker.WithUserFunc exOkCb]).1 ∧
    "T.Field2" ∈ gowalker.flatPaths (gowalker.WalkSt [] exTwoField
      [gowalker.WithMetaFilter exRejectF2, gowalker.WithUserFunc exOkCb]).1 := by
  constructor <;> decide

/-- Claim C5 as amended: walker.go stores the meta filter but never
evaluates it — the walk is identical for any two meta-filter settings
(first conjunct).  The legacy engine implements the claimed behaviour: a
freshly built node the filter rejects is returned as no node, is not
cached, receives no callback, and leaves the arena and trace untouched
(second conjunct). -/
theorem claim_C5_meta_filter :
    (∀ (s : gowalker.walkSettings) (f : gowalker.MetaFilter) (h : Heap) (obj : Val)
        (d : Nat) (p : String) (st : gowalker.WState),
        gowalker.walkRecursive { s with metaFilter := some f } h obj d p st =
        gowalker.walkRecursive { s with metaFilter := none } h obj d p st) ∧
    (∀ (s : legacy.walkSettings) (h : Heap) (fn : legacy.UserFunc) (obj : Val)
        (d : Nat) (p : String) (st : legacy.LState) (vis : List Nat)
        (mf : legacy.MetaFilter),
        (d : Int) ≤ s.MaxDepth → obj.isValid = true →
        (s.TypeFilter = none ∨ ∃ f, s.TypeFilter = some f ∧ f obj.typeOf = true) →
        (s.TagFilter = none ∨ legacy.fieldByName obj p = none ∨
          ∃ fi tf, legacy.fieldByName obj p = some fi ∧ s.TagFilter = some tf ∧
            tf fi.ftag = true) →
        legacy.lCycle obj st.visited = some vis →
        legacy.cacheGet st.cache p = none →
        s.MetaFilter = some mf →
        mf (snapOf ⟨mkName obj.typeOf, obj.typeOf, valueCanSet obj,
          obj.typeOf.pkgPath != "", p⟩) = false →
        legacy.walkRecursive s h obj fn d p st =
          ({ st with visited := vis }, .ok none)) := by
  constructor
  · intro s f h obj d p st
    unfold gowalker.walkRecursive
    exact (gowalker.walkF_filters_congr s s.typeFilter (some f) h _ obj d p st).trans
      (gowalker.walkF_filters_congr s s.typeFilter none h _ obj d p st).symm
  · intro s h fn obj d p st vis mf hd hval hTF hTag hcy hmiss hmf hrej
    rw [legacy.walkRecursive, legacy.fuelFor_pos hd]
    exact legacy.walkF_metaFilter_reject s h fn _ obj d p st vis mf hval hTF hTag
      hcy hmiss hmf hrej

/-- Witness for C5: in the legacy engine, a string value at path
`T.Field2` under a meta filter rejecting that path is pruned with nothing
recorded. -/
theorem claim_C5_witness :
    legacy.walkRecursive { legacy.defaultSettings with MetaFilter := some exRejectF2 }
      [] (.base exString) (fun _ _ => none) 0 "T.Field2" legacy.initState =
      ({ legacy.initState with visited := [] }, .ok none) :=
  claim_C5_meta_filter.2 { legacy.defaultSettings with MetaFilter := some exRejectF2 }
    [] (fun _ _ => none) (.base exString) 0 "T.Field2" legacy.initState [] exRejectF2
    (by decide) rfl (Or.inl rfl) (Or.inr (Or.inl rfl)) rfl rfl rfl (by decide)

/-- Claim C6 (code bug): under the default settings the current engine
panics, rather than silently pruning, on a struct with an unexported
member (the includePrivate default lets `fieldVal.Interface()` reach an
unexported field, which panics in Go reflect) and likewise on a nil root
(`reflect.TypeOf(nil)` is nil and `t.Name()` dereferences it). -/
theorem claim_C6_panics :
    gowalker.Walk [] exPriv [] = gowalker.WalkRet.panicked ∧
    gowalker.Walk [] Val.invalid [] = gowalker.WalkRet.panicked :=
  ⟨rfl, rfl⟩

/-- Counterexample to C7: walking `exTwoField` (a named struct type of
package `pkg`), the root node — which is not an unexported field, nor a
field at all — gets `IsPrivate = true`, because walker.go computes
`IsPrivate` from the node's type's `PkgPath()`, not from the declaring
field's exportedness. -/
theorem claim_C7_counterexample :
    (gowalker.WalkSt [] exTwoField []).1.flat.map (fun e => (e.1, e.2.IsPrivate)) =
      [("T", true), ("T.Field1", false), ("T.Field2", false)] := by
  decide

/-- Claim C7 as amended: for every node the traversal stores, `IsPrivate`
is true exactly when the node's own type has a nonempty package path (a
defined type), independently of any field's exportedness. -/
theorem claim_C7_is_private (h : Heap) (obj : Val) (opts : List gowalker.Opt)
    (pc : String × MetaCore) (hpc : pc ∈ (gowalker.WalkSt h obj opts).1.flat) :
    pc.2.IsPrivate = (pc.2.Ty.pkgPath != "") := by
  rcases gowalker.WalkSt_fst h obj opts with he | he
  · rw [he] at hpc
    simp [gowalker.initState] at hpc
  · rw [he] at hpc
    unfold gowalker.walkRecursive at hpc
    rcases gowalker.walkF_flat_built (opts.foldl (fun acc o => o acc)
        gowalker.defaultSettings) h
        (gowalker.fuelFor (opts.foldl (fun acc o => o acc) gowalker.defaultSettings) 0)
        obj 0 (mkName obj.typeOf) gowalker.initState pc hpc with hmem | hbuilt
    · simp [gowalker.initState] at hmem
    · exact hbuilt.2.2.1

/-- Witness for C7: the root entry of the `exTwoField` walk satisfies the
amended invariant (`IsPrivate = true` matching its type's nonempty package
path). -/
theorem claim_C7_witness :
    (("T", ⟨"T", ⟨"T", "pkg.T", "pkg"⟩, false, true, "T"⟩) :
      String × MetaCore).2.IsPrivate =
    ((("T", ⟨"T", ⟨"T", "pkg.T", "pkg"⟩, false, true, "T"⟩) :
      String × MetaCore).2.Ty.pkgPath != "") :=
  claim_C7_is_private [] exTwoField []
    ("T", ⟨"T", ⟨"T", "pkg.T", "pkg"⟩, false, true, "T"⟩) (by decide)

/-- Counterexample to C8: over `exDupMap` — a map whose two distinct keys
(`1` and `"1"`) share the `%v` rendering "1" — two distinct visited
locations (an int entry and a string entry, both receiving callbacks)
get the same path, and the flat map's store sequence repeats that path. -/
theorem claim_C8_counterexample :
    ¬ ((gowalker.WalkSt [] exDupMap [gowalker.WithUserFunc exOkCb]).1.flat.map
        (fun e => e.1)).Nodup ∧
    (gowalker.WalkSt [] exDupMap [gowalker.WithUserFunc exOkCb]).1.trace.map
        (fun e => (e.meta.Path, e.meta.Ty)) =
      [("map[interface {}]interface {}", ⟨"", "map[interface {}]interface {}", ""⟩),
       ("map[interface {}]interface {}[1]", exInt),
       ("map[interface {}]interface {}[1]", exString)] := by
  constructor
  · decide
  · rfl

/-- Claim C8 as amended: path uniqueness holds for every map-free input
whose struct field names are Go identifiers (maps are excluded because
distinct keys may share a `%v` rendering) — within one traversal no two
stored locations receive the same path; and the set of stored paths does
not depend on the registered callbacks as long as none errors. -/
theorem claim_C8_unique_paths :
    (∀ (h : Heap) (obj : Val) (opts : List gowalker.Opt), GoodVal obj → GoodHeap h →
      ((gowalker.WalkSt h obj opts).1.flat.map (fun e => e.1)).Nodup) ∧
    (∀ (s : gowalker.walkSettings) (f₁ f₂ : List gowalker.UserFunc) (h : Heap)
        (obj : Val) (d : Nat) (p : String) (st : gowalker.WState),
        NeverErr f₁ → NeverErr f₂ →
        (gowalker.walkRecursive { s with userFuncs := f₁ } h obj d p st).1.flat =
        (gowalker.walkRecursive { s with userFuncs := f₂ } h obj d p st).1.flat) := by
  constructor
  · intro h obj opts hg hh
    rcases gowalker.WalkSt_fst h obj opts with he | he
    · rw [he]
      simp [gowalker.initState]
    · rw [he]
      obtain ⟨new, hfl, _, hnd⟩ := gowalker.walkF_paths
        (opts.foldl (fun acc o => o acc) gowalker.defaultSettings) h hh
        (gowalker.fuelFor (opts.foldl (fun acc o => o acc) gowalker.defaultSettings) 0)
        obj 0 (mkName obj.typeOf) gowalker.initState hg
      unfold gowalker.walkRecursive
      rw [hfl]
      simpa [gowalker.initState] using hnd
  · intro s f₁ f₂ h obj d p st hne₁ hne₂
    unfold gowalker.walkRecursive
    exact (gowalker.walkF_funcs_rel s f₁ f₂ h hne₁ hne₂ _ obj d p st st rfl rfl).2.2

/-- Witness for C8: the walk of the map-free `exTwoField` has pairwise
distinct flat-map paths. -/
theorem claim_C8_witness :
    ((gowalker.WalkSt [] exTwoField []).1.flat.map (fun e => e.1)).Nodup :=
  claim_C8_unique_paths.1 [] exTwoField []
    (GoodVal.strct _ _
      (by intro fv hfv; fin_cases hfv <;> decide)
      (by intro fv hfv; fin_cases hfv <;> exact GoodVal.base _)
      (by decide))
    (by intro e he; simp at he)

/-- Counterexample to C9: in walker.go, when the traversal reaches a
second location with an already-stored path (the two `exDupMap` entries
share the rendering "1"), it does not return the earlier node: a fresh
node with a different `Type` is built, passed to the callbacks, and stored
over the old entry — so path equality does not imply an identical node. -/
theorem claim_C9_counterexample :
    (gowalker.WalkSt [] exDupMap [gowalker.WithUserFunc exOkCb]).1.flat.map
        (fun e => (e.1, e.2.Ty)) =
      [("map[interface {}]interface {}", ⟨"", "map[interface {}]interface {}", ""⟩),
       ("map[interface {}]interface {}[1]", exInt),
       ("map[interface {}]interface {}[1]", exString)] := by
  rfl

/-- Claim C9 as amended: the per-path cache exists only in the legacy
engine, where a cache hit (after the guards pass) returns exactly the
already-cached node — the identical arena object — building nothing and
invoking no callback (first conjunct).  walker.go keeps no cache: its flat
map is append-only, every visited location appending a freshly built entry
regardless of earlier stores (second conjunct). -/
theorem claim_C9_cache :
    (∀ (s : legacy.walkSettings) (h : Heap) (fn : legacy.UserFunc) (obj : Val)
        (d : Nat) (p : String) (st : legacy.LState) (vis : List Nat) (i : Nat),
        (d : Int) ≤ s.MaxDepth → obj.isValid = true →
        (s.TypeFilter = none ∨ ∃ f, s.TypeFilter = some f ∧ f obj.typeOf = true) →
        (s.TagFilter = none ∨ legacy.fieldByName obj p = none ∨
          ∃ fi tf, legacy.fieldByName obj p = some fi ∧ s.TagFilter = some tf ∧
            tf fi.ftag = true) →
        legacy.lCycle obj st.visited = some vis →
        legacy.cacheGet st.cache p = some i →
        legacy.walkRecursive s h obj fn d p st =
          ({ st with visited := vis }, .ok (some i))) ∧
    (∀ (s : gowalker.walkSettings) (h : Heap) (obj : Val) (d : Nat) (p : String)
        (st : gowalker.WState),
        ∃ new, (gowalker.walkRecursive s h obj d p st).1.flat = st.flat ++ new) := by
  constructor
  · intro s h fn obj d p st vis i hd hval hTF hTag hcy hhit
    rw [legacy.walkRecursive, legacy.fuelFor_pos hd]
    exact legacy.walkF_cache_hit s h fn _ obj d p st vis i hval hTF hTag hcy hhit
  · intro s h obj d p st
    unfold gowalker.walkRecursive
    exact gowalker.walkF_flat_mono s h _ obj d p st

/-- Witness for C9: a legacy call at a path whose node (index 0) is
already cached returns exactly that index, touching nothing. -/
theorem claim_C9_witness :
    legacy.walkRecursive legacy.defaultSettings [] (.base exInt) (fun _ _ => none)
      0 "p" ⟨[], [⟨⟨"n", exInt, false, false, "p"⟩, none, []⟩], [("p", 0)], []⟩ =
      (⟨[], [⟨⟨"n", exInt, false, false, "p"⟩, none, []⟩], [("p", 0)], []⟩,
        .ok (some 0)) :=
  claim_C9_cache.1 legacy.defaultSettings [] (fun _ _ => none) (.base exInt) 0 "p"
    ⟨[], [⟨⟨"n", exInt, false, false, "p"⟩, none, []⟩], [("p", 0)], []⟩ [] 0
    (by decide) rfl (Or.inl rfl) (Or.inr (Or.inl rfl)) rfl rfl

/-- Claim C10 (confirmed): every callback invocation receives a by-value
metadata copy taken before children are attached — its `Parent` is nil and
its `Children` empty (first conjunct); and because the copy is by value,
nothing a callback does can influence the walk output: the result, visited
set and flat map are identical under any two non-erroring callback lists
(second conjunct). -/
theorem claim_C10_snapshot :
    (∀ (h : Heap) (obj : Val) (opts : List gowalker.Opt) (ev : gowalker.Event),
        ev ∈ (gowalker.WalkSt h obj opts).1.trace →
        ev.meta.Parent = none ∧ ev.meta.Children = []) ∧
    (∀ (s : gowalker.walkSettings) (f₁ f₂ : List gowalker.UserFunc) (h : Heap)
        (obj : Val) (d : Nat) (p : String) (st : gowalker.WState),
        NeverErr f₁ → NeverErr f₂ →
        (gowalker.walkRecursive { s with userFuncs := f₁ } h obj d p st).2 =
          (gowalker.walkRecursive { s with userFuncs := f₂ } h obj d p st).2 ∧
        (gowalker.walkRecursive { s with userFuncs := f₁ } h obj d p st).1.visited =
          (gowalker.walkRecursive { s with userFuncs := f₂ } h obj d p st).1.visited ∧
        (gowalker.walkRecursive { s with userFuncs := f₁ } h obj d p st).1.flat =
          (gowalker.walkRecursive { s with userFuncs := f₂ } h obj d p st).1.flat) := by
  constructor
  · intro h obj opts ev hev
    rcases gowalker.WalkSt_fst h obj opts with he | he
    · rw [he] at hev
      simp [gowalker.initState] at hev
    · rw [he] at hev
      unfold gowalker.walkRecursive at hev
      rcases gowalker.walkF_snap (opts.foldl (fun acc o => o acc)
          gowalker.defaultSettings) h
          (gowalker.fuelFor (opts.foldl (fun acc o => o acc) gowalker.defaultSettings) 0)
          obj 0 (mkName obj.typeOf) gowalker.initState ev hev with hmem | hprop
      · simp [gowalker.initState] at hmem
      · exact hprop
  · intro s f₁ f₂ h obj d p st hne₁ hne₂
    unfold gowalker.walkRecursive
    exact gowalker.walkF_funcs_rel s f₁ f₂ h hne₁ hne₂ _ obj d p st st rfl rfl

/-- Witness for C10: with the concrete callback lists `[exOkCb]` and `[]`
(neither ever errs), the walk of `exTwoField` yields the same result,
visited set and flat map. -/
theorem claim_C10_witness :
    (gowalker.walkRecursive { gowalker.defaultSettings with userFuncs := [exOkCb] }
        [] exTwoField 0 "T" gowalker.initState).2 =
      (gowalker.walkRecursive { gowalker.defaultSettings with userFuncs := [] }
        [] exTwoField 0 "T" gowalker.initState).2 ∧
    (gowalker.walkRecursive { gowalker.defaultSettings with userFuncs := [exOkCb] }
        [] exTwoField 0 "T" gowalker.initState).1.visited =
      (gowalker.walkRecursive { gowalker.defaultSettings with userFuncs := [] }
        [] exTwoField 0 "T" gowalker.initState).1.visited ∧
    (gowalker.walkRecursive { gowalker.defaultSettings with userFuncs := [exOkCb] }
        [] exTwoField 0 "T" gowalker.initState).1.flat =
      (gowalker.walkRecursive { gowalker.defaultSettings with userFuncs := [] }
        [] exTwoField 0 "T" gowalker.initState).1.flat :=
  claim_C10_snapshot.2 gowalker.defaultSettings [exOkCb] [] [] exTwoField 0 "T"
    gowalker.initState
    (by
      intro fn hfn v m
      simp at hfn
      rw [hfn]
      rfl)
    (by intro fn hfn v m; simp at hfn)
